import Mathlib

/-!
# reporeport: commit-log parser, change-stats lookup, template helper, output file name

A shallow embedding of `main.go`.

* Text handled by the parser is a `GoString`: the list of code points of a valid UTF-8 Go
  string.  On such text `strings.Split`, `strings.Join`, `strings.Contains`,
  `strings.ReplaceAll` (non-empty separators) and `strings.TrimSpace` act on code points exactly
  as they act on the bytes.
* The template helper `slice` indexes bytes, so it is embedded over `List UInt8`; `utf8` gives
  the bytes of a `GoString`.
* External processes (`git log`, `git show`) and `time.Parse` on commit dates are inputs of the
  model, collected in `Env`; every theorem about `getCommits` holds for all of them.
* Go's `time` package is not part of the repository.  `main` only uses it on calendar days at
  midnight UTC, so `Time` is a civil date and `Date`/`AddDate`/`Format`/`Parse` follow the
  documented behaviour of the package on such values.
* A run-time panic or a fatal exit is `none`.
-/

set_option maxRecDepth 100000

namespace RepoReport

/-! ## Go strings -/

/-- Valid UTF-8 text as the list of its code points. -/
abbrev GoString := List Char

/-- Bytes of a text (`[]byte(s)`). -/
def utf8 (s : GoString) : List UInt8 := s.flatMap String.utf8EncodeChar

/-- White space in the sense of `unicode.IsSpace` (the Unicode White_Space property). -/
def isSpace (c : Char) : Bool :=
  let n := c.toNat
  (9 ≤ n && n ≤ 13) || n == 0x20 || n == 0x85 || n == 0xA0 || n == 0x1680 ||
  (0x2000 ≤ n && n ≤ 0x200a) || n == 0x2028 || n == 0x2029 || n == 0x202f ||
  n == 0x205f || n == 0x3000

/-- Function `strings.TrimSpace`: leading and trailing white space removed. -/
def TrimSpace (s : GoString) : GoString :=
  (s.dropWhile isSpace).rdropWhile isSpace

/-- Function `strings.Cut`: the text before and after the first occurrence of `sep`. -/
def cut (sep : GoString) : GoString → Option (GoString × GoString)
  | [] => if sep = [] then some ([], []) else none
  | c :: cs =>
    if sep.isPrefixOf (c :: cs) then some ([], (c :: cs).drop sep.length)
    else match cut sep cs with
      | none => none
      | some (b, a) => some (c :: b, a)

/-- Function `strings.Contains`. -/
def Contains (s substr : GoString) : Bool := (cut substr s).isSome

/-- Loop of `strings.Split` for a non-empty separator: cut at the first occurrence, at most
`n` times. -/
def splitLoop (sep : GoString) : Nat → GoString → List GoString
  | 0, s => [s]
  | n + 1, s =>
    match cut sep s with
    | none => [s]
    | some (b, a) => b :: splitLoop sep n a

/-- Function `strings.Split`.  An empty separator splits after each code point; otherwise the
text is cut at the non-overlapping occurrences of `sep`, leftmost first (a text of length `n`
has at most `n` of them). -/
def Split (s sep : GoString) : List GoString :=
  if sep = [] then s.map (fun c => [c]) else splitLoop sep s.length s

/-- Function `strings.Join`. -/
def Join : List GoString → GoString → GoString
  | [], _ => []
  | [a], _ => a
  | a :: b :: rest, sep => a ++ sep ++ Join (b :: rest) sep

/-- Function `strings.ReplaceAll`. -/
def ReplaceAll (s old new : GoString) : GoString :=
  if old = [] then new ++ s.flatMap (fun c => c :: new) else Join (Split s old) new

/-- Decimal digits of `n`, most significant first, prepended to `acc`. -/
def decimalLoop : Nat → Nat → GoString → GoString
  | 0, _, acc => acc
  | fuel + 1, n, acc =>
    let acc := Nat.digitChar (n % 10) :: acc
    if n / 10 = 0 then acc else decimalLoop fuel (n / 10) acc

/-- Decimal numeral of a natural number. -/
def decimal (n : Nat) : GoString := decimalLoop (n + 1) n []

/-! ## `fmt.Sscanf` with the verb `%d` -/

/-- Value of a string of decimal digits. -/
def decVal (tok : GoString) : Nat :=
  tok.foldl (fun acc c => 10 * acc + (c.toNat - 48)) 0

/-- Method `SkipSpace` of the scanner: white space is skipped, a newline is an error. -/
def skipSpace : GoString → Option GoString
  | [] => some []
  | c :: cs =>
    if c = '\n' then none
    else if isSpace c then skipSpace cs
    else some (c :: cs)

/-- Method `scanInt` for `%d` into an `int`: skip spaces, accept one sign, read the longest run
of the decimal digits `0-9` (an error when it is empty), and convert the token as
`strconv.ParseInt(tok, 10, 64)` does (an error when the value does not fit 64 bits).  The
result is `none` when the scanner reports an error. -/
def scanInt (s : GoString) : Option Int :=
  match skipSpace s with
  | none => none
  | some s =>
    let neg := s.head? = some '-'
    let s := if s.head? = some '+' ∨ s.head? = some '-' then s.tail else s
    let tok := s.takeWhile (fun c => c.isDigit)
    if tok = [] then none
    else
      let v : Int := if neg then -(decVal tok : Int) else (decVal tok : Int)
      if -(2 : Int) ^ 63 ≤ v ∧ v < (2 : Int) ^ 63 then some v else none

/-- Call `fmt.Sscanf(part, "%d ...", &x)`: the operand is assigned when the integer is
scanned, and keeps its value when scanning fails.  The literal text after `%d` in the format is
matched afterwards and cannot undo the assignment. -/
def Sscanf (part : GoString) (x : Int) : Int :=
  match scanInt part with
  | some v => v
  | none => x

/-! ## Commits -/

/-- Inputs of the model: `time.Parse layout value` (`none` is an error) and the two `git show`
queries of `getCommitChanges` for a hash (`cmd.Output()`). -/
structure Env (τ : Type) where
  timeParse : GoString → GoString → Option τ
  showNameOnly : GoString → Except GoString GoString
  showStat : GoString → Except GoString GoString

/-- Struct `Commit`. -/
structure Commit (τ : Type) where
  Hash : GoString
  Author : GoString
  Date : τ
  Subject : GoString
  Body : GoString
  Files : List GoString
  Additions : Int
  Deletions : Int
deriving DecidableEq

/-- The four results of `getCommitChanges`. -/
structure Changes where
  files : List GoString
  additions : Int
  deletions : Int
  err : Option GoString
deriving DecidableEq

/-- Inner loop of `getCommitChanges` over the parts of the summary line. -/
def scanParts : List GoString → Int × Int → Int × Int
  | [], acc => acc
  | part :: rest, (additions, deletions) =>
    if Contains part "insertion".toList then
      scanParts rest (Sscanf part additions, deletions)
    else if Contains part "deletion".toList then
      scanParts rest (additions, Sscanf part deletions)
    else scanParts rest (additions, deletions)

/-- Outer loop of `getCommitChanges`; the argument lists the lines from the last to the first. -/
def scanLines : List GoString → Int × Int
  | [] => (0, 0)
  | line :: earlier =>
    if Contains line "insertion".toList || Contains line "deletion".toList then
      scanParts (Split line ", ".toList) (0, 0)
    else scanLines earlier

/-- Function `getCommitChanges`. -/
def getCommitChanges {τ : Type} (env : Env τ) (hash : GoString) : Changes :=
  match env.showNameOnly hash with
  | .error e => ⟨[], 0, 0, some e⟩
  | .ok output =>
    let files := (Split (TrimSpace output) "\n".toList).filter (fun file => file ≠ [])
    match env.showStat hash with
    | .error e => ⟨files, 0, 0, some e⟩
    | .ok output =>
      let lines := Split output "\n".toList
      let r := scanLines lines.reverse
      ⟨files, r.1, r.2, none⟩

/-- Diffstat summary `F files changed, N insertions(+), M deletions(-)`, after `indent`
spaces (`git show --stat` prints one). -/
def summaryBoth (indent files insertions deletions : Nat) : GoString :=
  List.replicate indent ' ' ++ decimal files ++ " files changed, ".toList ++
    decimal insertions ++ " insertions(+), ".toList ++ decimal deletions ++
    " deletions(-)".toList

/-- Diffstat summary `F files changed, N insertions(+)`, after `indent` spaces. -/
def summaryInsertions (indent files insertions : Nat) : GoString :=
  List.replicate indent ' ' ++ decimal files ++ " files changed, ".toList ++
    decimal insertions ++ " insertions(+)".toList

/-- Separator of the records in the output of `git log`. -/
def recordSep : GoString := "<END_COMMIT>\n".toList

/-- The end marker. -/
def endMarker : GoString := "<END_COMMIT>".toList

/-- Primary layout of a commit date. -/
def primaryLayout : GoString := "Mon Jan 2 15:04:05 2006 -0700".toList

/-- Fallback layout of a commit date. -/
def fallbackLayout : GoString := "Mon Jan 2 15:04:05 2006".toList

/-- Date parsing in `getCommits`: the primary layout, then the fallback layout; `none` when
both fail. -/
def parseCommitDate {τ : Type} (env : Env τ) (dateStr : GoString) : Option τ :=
  match env.timeParse primaryLayout dateStr with
  | some date => some date
  | none => env.timeParse fallbackLayout dateStr

/-- Body of the parsing loop of `getCommits` for one chunk; `none` is `continue`. -/
def parseRecord {τ : Type} (env : Env τ) (commitText : GoString) : Option (Commit τ) :=
  let commitText := TrimSpace commitText
  if commitText = [] then none
  else
    let lines := Split commitText "\n".toList
    if lines.length < 4 then none
    else
      let hash := lines.getD 0 []
      let author := lines.getD 1 []
      let dateStr := lines.getD 2 []
      let subject := lines.getD 3 []
      let body := if lines.length > 4 then TrimSpace (Join (lines.drop 4) "\n".toList) else []
      match parseCommitDate env dateStr with
      | none => none
      | some date =>
        let ch := getCommitChanges env hash
        some ⟨hash, author, date, subject, body, ch.files, ch.additions, ch.deletions⟩

/-- One iteration of the parsing loop of `getCommits`: the commit of the chunk, if it yields
one, is appended. -/
def appendRecord {τ : Type} (env : Env τ) (commits : List (Commit τ)) (commitText : GoString) :
    List (Commit τ) :=
  match parseRecord env commitText with
  | none => commits
  | some c => commits ++ [c]

/-- Parsing loop of `getCommits` on the output of `git log`. -/
def parseCommits {τ : Type} (env : Env τ) (output : GoString) : List (Commit τ) :=
  (Split output recordSep).foldl (appendRecord env) []

/-- Function `getCommits`, from the result of the log command. -/
def getCommits {τ : Type} (env : Env τ) (logOutput : Except GoString GoString) :
    Except GoString (List (Commit τ)) :=
  match logOutput with
  | .error e => .error ("git log command failed: ".toList ++ e)
  | .ok output => .ok (parseCommits env output)

/-- Text of one record as the log format `%H%n%an%n%ad%n%s%n%b%n<END_COMMIT>` prints it. -/
def recordText (hash author date subject body : GoString) : GoString :=
  hash ++ '\n' :: author ++ '\n' :: date ++ '\n' :: subject ++ '\n' :: body ++ '\n' :: recordSep

/-- Fields of one commit as the log format prints them: `%H`, `%an`, `%ad`, `%s`, `%b`. -/
structure LogRecord where
  hash : GoString
  author : GoString
  date : GoString
  subject : GoString
  body : GoString
deriving DecidableEq

/-- Text of a record in the output of `git log`. -/
def LogRecord.text (r : LogRecord) : GoString :=
  recordText r.hash r.author r.date r.subject r.body

/-- Lines of a record once trimmed, as the parsing loop sees them. -/
def recordLines (r : GoString) : List GoString := Split (TrimSpace r) "\n".toList

/-- The text is not empty and its first character is not white space. -/
def startsWithNonSpace (s : GoString) : Bool :=
  match s with
  | [] => false
  | c :: _ => !isSpace c

/-- The text is not empty and its last character is not white space. -/
def endsWithNonSpace (s : GoString) : Bool :=
  match s.getLast? with
  | none => false
  | some c => !isSpace c

/-- Some character of the text is not white space. -/
def hasNonSpace (s : GoString) : Bool := s.any (fun c => !isSpace c)

/-! ## Template helper -/

/-- Slice expression `s[i:j]` on a string; `none` is the panic "slice bounds out of range". -/
def sliceExpr (s : List UInt8) (i j : Int) : Option (List UInt8) :=
  if 0 ≤ i ∧ i ≤ j ∧ j ≤ s.length then some ((s.take j.toNat).drop i.toNat) else none

/-- Template function `slice` of `generateHTMLReport`. -/
def slice (s : List UInt8) (i j : Int) : Option (List UInt8) :=
  if i ≥ s.length then some []
  else
    let j := if j > s.length then (s.length : Int) else j
    sliceExpr s i j

/-! ## Calendar days and the output file name -/

/-- A `time.Time` at midnight UTC: its civil date. -/
structure Time where
  year : Int
  month : Nat
  day : Nat
deriving DecidableEq

/-- Function `isLeap` of package time. -/
def isLeap (year : Int) : Bool :=
  year % 4 == 0 && (year % 100 != 0 || year % 400 == 0)

/-- Function `daysIn` of package time. -/
def daysIn (month : Nat) (year : Int) : Nat :=
  if month = 2 then (if isLeap year then 29 else 28)
  else if month = 4 ∨ month = 6 ∨ month = 9 ∨ month = 11 then 30
  else 31

/-- The day after. -/
def nextDay (t : Time) : Time :=
  if t.day < daysIn t.month t.year then ⟨t.year, t.month, t.day + 1⟩
  else if t.month < 12 then ⟨t.year, t.month + 1, 1⟩
  else ⟨t.year + 1, 1, 1⟩

/-- The day before. -/
def prevDay (t : Time) : Time :=
  if 1 < t.day then ⟨t.year, t.month, t.day - 1⟩
  else if 1 < t.month then ⟨t.year, t.month - 1, daysIn (t.month - 1) t.year⟩
  else ⟨t.year - 1, 12, 31⟩

/-- The day `k` days away. -/
def addDays (t : Time) : Int → Time
  | Int.ofNat n => Nat.iterate nextDay n t
  | Int.negSucc n => Nat.iterate prevDay (n + 1) t

/-- Function `time.Date` at midnight UTC: the month is normalised into 1..12 by carrying into
the year, then the day of the month counts from the first of that month, so that October 32 is
November 1 and day 0 is the last day of the month before. -/
def Date (year month day : Int) : Time :=
  let m := month - 1
  addDays ⟨year + m / 12, (m % 12).toNat + 1, 1⟩ (day - 1)

/-- Method `Time.AddDate`. -/
def AddDate (t : Time) (years months days : Int) : Time :=
  Date (t.year + years) (t.month + months) (t.day + days)

/-- Function `appendInt` of package time: the decimal numeral padded with zeros to `width`. -/
def appendInt (x : Int) (width : Nat) : GoString :=
  let ds := decimal x.natAbs
  (if x < 0 then ['-'] else []) ++ List.replicate (width - ds.length) '0' ++ ds

/-- Method `Time.Format` with the layout `2006-01-02`. -/
def Format (t : Time) : GoString :=
  appendInt t.year 4 ++ '-' :: appendInt t.month 2 ++ '-' :: appendInt t.day 2

/-- Value of a digit, `none` for another character. -/
def digit (c : Char) : Option Nat :=
  if c.isDigit then some (c.toNat - 48) else none

/-- Function `time.Parse` with the layout `2006-01-02`: four digits, a hyphen, two digits, a
hyphen, two digits and nothing more; the month is in 1..12 and the day exists in that month. -/
def Parse (value : GoString) : Option Time :=
  match value with
  | [y1, y2, y3, y4, s1, m1, m2, s2, d1, d2] =>
    match digit y1, digit y2, digit y3, digit y4, digit m1, digit m2, digit d1, digit d2 with
    | some a, some b, some c, some d, some e, some f, some g, some h =>
      let year : Nat := 1000 * a + 100 * b + 10 * c + d
      let month := 10 * e + f
      let day := 10 * g + h
      if s1 = '-' ∧ s2 = '-' ∧ 1 ≤ month ∧ month ≤ 12 ∧ 1 ≤ day ∧ day ≤ daysIn month year then
        some ⟨year, month, day⟩
      else none
    | _, _, _, _, _, _, _, _ => none
  | _ => none

/-- The part of `main` that fixes the output file name (lines 62-68 and 97-106) from the flags
`-end`, `-company` and `-output`; `none` is the fatal exit on an unparseable end date. -/
def mainOutputFileName (endDateStr companyName outputFile : GoString) : Option GoString :=
  match Parse endDateStr with
  | none => none
  | some endDate =>
    let endDate := AddDate endDate 0 0 1
    if outputFile = [] then
      let sanitizedCompanyName := ReplaceAll companyName " ".toList "-".toList
      let sanitizedCompanyName := ReplaceAll sanitizedCompanyName "/".toList "-".toList
      some (Format (AddDate endDate 0 0 (-1)) ++ '-' :: sanitizedCompanyName ++
        "-report.html".toList)
    else some outputFile

/-! ## Sample inputs -/

/-- An environment whose date parser accepts exactly the reference time written in the layout
itself (which `time.Parse` accepts), whose name-only query prints one path and whose stat query
fails. -/
def statFails : Env Unit where
  timeParse := fun layout value => if value = layout then some () else none
  showNameOnly := fun _ => .ok "main.go\n".toList
  showStat := fun _ => .error "exit status 128".toList

/-- An environment with the same date parser where both queries succeed. -/
def bothSucceed : Env Unit where
  timeParse := fun layout value => if value = layout then some () else none
  showNameOnly := fun _ => .ok "main.go\nREADME.md\ngo.mod\n".toList
  showStat := fun _ =>
    .ok (" main.go   | 12 ++++++++----\n README.md |  2 ++\n go.mod    |  0\n".toList ++
      " 3 files changed, 10 insertions(+), 4 deletions(-)\n".toList)

/-- An environment where the change has insertions only. -/
def insertionsOnly : Env Unit where
  timeParse := fun layout value => if value = layout then some () else none
  showNameOnly := fun _ => .ok "README.md\n".toList
  showStat := fun _ => .ok " README.md | 7 +++++++\n 1 files changed, 7 insertions(+)\n".toList

/-- An environment whose diffstat summary reports 2^63 insertions. -/
def hugeInsertions : Env Unit where
  timeParse := fun layout value => if value = layout then some () else none
  showNameOnly := fun _ => .ok "main.go\n".toList
  showStat := fun _ =>
    .ok "3 files changed, 9223372036854775808 insertions(+), 4 deletions(-)\n".toList

/-- A commit with subject and body. -/
def commitA : LogRecord :=
  ⟨"3f2a9c1".toList, "Ann".toList, primaryLayout, "Add parser".toList,
    "First line\n\nThird line  ".toList⟩

/-- A commit made with an empty message: subject and body are empty. -/
def commitB : LogRecord :=
  ⟨"a1b2c3d".toList, "Eve".toList, primaryLayout, [], []⟩

/-- A commit with a subject only, dated without zone offset. -/
def commitC : LogRecord :=
  ⟨"77be0d4".toList, "Bob".toList, fallbackLayout, "Fix typo ".toList, []⟩

/-- A record with a three-line body, as `git log` prints it before the end marker. -/
def firstRecord : GoString :=
  "3f2a9c1\nAnn\nMon Jan 2 15:04:05 2006 -0700\nAdd parser\nFirst line\n\nThird line  \n".toList

/-- A record with an empty body and a date without zone offset. -/
def secondRecord : GoString :=
  "77be0d4\nBob\nMon Jan 2 15:04:05 2006\nFix typo\n\n".toList

/-- A log with two records. -/
def twoCommitLog : GoString := firstRecord ++ recordSep ++ secondRecord ++ recordSep

/-- A chunk with two lines only. -/
def shortChunk : GoString := "3f2a9c1\nAnn\n".toList

/-- A chunk with four lines whose date line is in no accepted layout. -/
def badDateChunk : GoString := "c0ffee1\nEve\nyesterday\nTidy up\n\n".toList

/-! ## Lemmas on cutting and splitting -/

theorem cut_nil_sep (s : GoString) : cut [] s = some ([], s) := by
  cases s <;> simp [cut]

theorem cut_eq_some {sep : GoString} : ∀ {s b a : GoString},
    cut sep s = some (b, a) → s = b ++ sep ++ a ∧ (sep ≠ [] → ¬ sep <:+: b) := by
  intro s
  induction s with
  | nil =>
    intro b a h
    by_cases hs : sep = []
    · simp [cut, hs] at h
      obtain ⟨rfl, rfl⟩ := h
      simp [hs]
    · simp [cut, hs] at h
  | cons c cs ih =>
    intro b a h
    unfold cut at h
    by_cases hp : sep.isPrefixOf (c :: cs) = true
    · rw [if_pos hp] at h
      simp only [Option.some.injEq, Prod.mk.injEq] at h
      obtain ⟨rfl, rfl⟩ := h
      obtain ⟨w, hw⟩ := List.isPrefixOf_iff_prefix.mp hp
      refine ⟨?_, fun hne hin => hne (List.eq_nil_of_infix_nil hin)⟩
      rw [← hw]
      simp
    · rw [if_neg hp] at h
      cases hc : cut sep cs with
      | none => simp [hc] at h
      | some p =>
        obtain ⟨b0, a0⟩ := p
        simp only [hc, Option.some.injEq, Prod.mk.injEq] at h
        obtain ⟨rfl, rfl⟩ := h
        obtain ⟨h1, h2⟩ := ih hc
        refine ⟨by rw [h1]; simp, fun hne hin => ?_⟩
        rcases List.infix_cons_iff.mp hin with hpre | hinf
        · apply hp
          apply List.isPrefixOf_iff_prefix.mpr
          rw [h1]
          exact hpre.trans (by simp [List.append_assoc])
        · exact h2 hne hinf

theorem cut_eq_none {sep : GoString} (hsep : sep ≠ []) : ∀ {s : GoString},
    cut sep s = none ↔ ¬ sep <:+: s := by
  intro s
  induction s with
  | nil =>
    simp [cut, hsep]
  | cons c cs ih =>
    unfold cut
    by_cases hp : sep.isPrefixOf (c :: cs) = true
    · rw [if_pos hp]
      simp only [reduceCtorEq, false_iff, not_not]
      exact (List.isPrefixOf_iff_prefix.mp hp).isInfix
    · rw [if_neg hp]
      have hp2 : ¬ sep <+: c :: cs := fun h => hp (List.isPrefixOf_iff_prefix.mpr h)
      cases hc : cut sep cs with
      | none =>
        simp only [true_iff]
        intro hin
        rcases List.infix_cons_iff.mp hin with h | h
        · exact hp2 h
        · exact (ih.mp hc) h
      | some p =>
        simp only [reduceCtorEq, false_iff, not_not]
        have : sep <:+: cs := by
          by_contra hn
          rw [ih.mpr hn] at hc
          cases hc
        exact List.infix_cons this

theorem Contains_iff_inside (s substr : GoString) : Contains s substr = true ↔ substr <:+: s := by
  unfold Contains
  by_cases hs : substr = []
  · subst hs
    simp [cut_nil_sep]
  · cases hc : cut substr s with
    | none => simpa using (cut_eq_none hs).mp hc
    | some p =>
      simp only [Option.isSome_some, true_iff]
      by_contra hn
      rw [(cut_eq_none hs).mpr hn] at hc
      cases hc

/-- A separator whose first character does not occur again in it is found at the end of any
text that does not contain it. -/
theorem cut_append_sep {x : Char} {t : GoString} (hx : x ∉ t) :
    ∀ (b rest : GoString), ¬ (x :: t) <:+: b →
      cut (x :: t) (b ++ (x :: t) ++ rest) = some (b, rest) := by
  intro b
  induction b with
  | nil =>
    intro rest _
    have hp : (x :: t).isPrefixOf (x :: (t ++ rest)) = true :=
      List.isPrefixOf_iff_prefix.mpr ⟨rest, by simp⟩
    simp only [List.nil_append, List.cons_append]
    unfold cut
    rw [if_pos hp]
    simp
  | cons c b ih =>
    intro rest hb
    have hb2 : ¬ (x :: t) <:+: b := fun h => hb (List.infix_cons h)
    have hp : ¬ ((x :: t).isPrefixOf (c :: (b ++ (x :: t) ++ rest)) = true) := by
      intro hp
      have hpre : (x :: t) <+: (c :: b) ++ ((x :: t) ++ rest) := by
        have := List.isPrefixOf_iff_prefix.mp hp
        simpa [List.append_assoc] using this
      have hpre2 : (c :: b) <+: (c :: b) ++ ((x :: t) ++ rest) := List.prefix_append _ _
      rcases List.prefix_or_prefix_of_prefix hpre hpre2 with h | h
      · exact hb h.isInfix
      · obtain ⟨e, he⟩ := h
        obtain ⟨w, hw⟩ := hpre
        cases e with
        | nil =>
          apply hb
          rw [← he]
          simp
        | cons y e =>
          have hw2 : (c :: b) ++ ((y :: e) ++ w) = (c :: b) ++ ((x :: t) ++ rest) := by
            rw [← List.append_assoc, he]
            exact hw
          have hw3 := List.append_cancel_left hw2
          simp only [List.cons_append, List.cons.injEq] at hw3 he
          apply hx
          rw [← he.2, ← hw3.1]
          simp
    simp only [List.cons_append]
    unfold cut
    rw [if_neg hp]
    have := ih rest hb2
    simp only [List.cons_append] at this
    rw [this]

theorem cut_length_lt {sep s b a : GoString} (hsep : sep ≠ []) (h : cut sep s = some (b, a)) :
    a.length < s.length := by
  have h1 := (cut_eq_some h).1
  have : 0 < sep.length := List.length_pos.mpr hsep
  rw [h1]
  simp only [List.length_append]
  omega

theorem splitLoop_fuel {sep : GoString} (hsep : sep ≠ []) : ∀ (n m : Nat) (s : GoString),
    s.length ≤ n → s.length ≤ m → splitLoop sep n s = splitLoop sep m s := by
  intro n
  induction n with
  | zero =>
    intro m s hn _
    have hs : s = [] := List.length_eq_zero.mp (Nat.le_zero.mp hn)
    subst hs
    cases m <;> simp [splitLoop, cut, hsep]
  | succ n ih =>
    intro m s hn hm
    cases m with
    | zero =>
      have hs : s = [] := List.length_eq_zero.mp (Nat.le_zero.mp hm)
      subst hs
      simp [splitLoop, cut, hsep]
    | succ m =>
      simp only [splitLoop]
      cases hc : cut sep s with
      | none => rfl
      | some p =>
        obtain ⟨b, a⟩ := p
        have := cut_length_lt hsep hc
        simp only
        rw [ih m a (by omega) (by omega)]

theorem Split_of_absent {sep s : GoString} (hsep : sep ≠ []) (h : ¬ sep <:+: s) :
    Split s sep = [s] := by
  unfold Split
  rw [if_neg hsep]
  cases hl : s.length with
  | zero => simp [splitLoop]
  | succ n => simp [splitLoop, (cut_eq_none hsep).mpr h]

theorem Split_cut {sep s b a : GoString} (hsep : sep ≠ []) (h : cut sep s = some (b, a)) :
    Split s sep = b :: Split a sep := by
  unfold Split
  rw [if_neg hsep, if_neg hsep]
  have hlt := cut_length_lt hsep h
  cases hl : s.length with
  | zero => omega
  | succ n =>
    simp only [splitLoop, h]
    rw [splitLoop_fuel hsep n a.length a (by omega) (le_refl _)]

theorem Split_append_sep {x : Char} {t : GoString} (hx : x ∉ t) (b rest : GoString)
    (hb : ¬ (x :: t) <:+: b) :
    Split (b ++ (x :: t) ++ rest) (x :: t) = b :: Split rest (x :: t) :=
  Split_cut (by simp) (cut_append_sep hx b rest hb)

theorem Split_ne_nil (s sep : GoString) (hsep : sep ≠ []) : Split s sep ≠ [] := by
  cases hc : cut sep s with
  | none => rw [Split_of_absent hsep ((cut_eq_none hsep).mp hc)]; simp
  | some p => rw [Split_cut hsep hc]; simp

theorem Join_cons (a : GoString) (l : List GoString) (sep : GoString) (hl : l ≠ []) :
    Join (a :: l) sep = a ++ sep ++ Join l sep := by
  cases l with
  | nil => exact absurd rfl hl
  | cons b r => rfl

theorem Join_Split {sep : GoString} (hsep : sep ≠ []) : ∀ (n : Nat) (s : GoString),
    s.length ≤ n → Join (Split s sep) sep = s := by
  intro n
  induction n with
  | zero =>
    intro s hs
    have : s = [] := List.length_eq_zero.mp (Nat.le_zero.mp hs)
    subst this
    simp [Split, hsep, splitLoop, Join]
  | succ n ih =>
    intro s hs
    cases hc : cut sep s with
    | none => rw [Split_of_absent hsep ((cut_eq_none hsep).mp hc)]; rfl
    | some p =>
      obtain ⟨b, a⟩ := p
      have hlt := cut_length_lt hsep hc
      rw [Split_cut hsep hc, Join_cons _ _ _ (Split_ne_nil a sep hsep), ih a (by omega)]
      exact (cut_eq_some hc).1.symm

/-! ## Lemmas on trimming -/

theorem rdropWhile_append (p : Char → Bool) (x y : GoString) :
    (x ++ y).rdropWhile p =
      if y.rdropWhile p = [] then x.rdropWhile p else x ++ y.rdropWhile p := by
  induction y using List.reverseRecOn with
  | nil => simp
  | append_singleton y c ih =>
    rw [← List.append_assoc]
    by_cases hc : p c = true
    · rw [List.rdropWhile_concat_pos _ _ _ hc, List.rdropWhile_concat_pos _ _ _ hc, ih]
    · rw [List.rdropWhile_concat_neg _ _ _ hc, List.rdropWhile_concat_neg _ _ _ hc]
      simp

theorem dropWhile_rdropWhile (p : Char → Bool) (l : GoString) :
    (l.rdropWhile p).dropWhile p = (l.dropWhile p).rdropWhile p := by
  induction l with
  | nil => simp
  | cons a l ih =>
    have hcons : (a :: l).rdropWhile p =
        if l.rdropWhile p = [] then [a].rdropWhile p else [a] ++ l.rdropWhile p :=
      rdropWhile_append p [a] l
    by_cases ha : p a = true
    · rw [List.dropWhile_cons_of_pos ha, hcons]
      by_cases hl : l.rdropWhile p = []
      · rw [if_pos hl, List.rdropWhile_singleton, if_pos ha]
        have hall := List.rdropWhile_eq_nil_iff.mp hl
        have : l.dropWhile p = [] := List.dropWhile_eq_nil_iff.mpr hall
        rw [this]
        simp
      · rw [if_neg hl]
        simp only [List.singleton_append]
        rw [List.dropWhile_cons_of_pos ha, ih]
    · rw [List.dropWhile_cons_of_neg ha, hcons]
      by_cases hl : l.rdropWhile p = []
      · rw [if_pos hl, List.rdropWhile_singleton, if_neg ha, List.dropWhile_cons_of_neg ha]
      · rw [if_neg hl]
        simp only [List.singleton_append]
        rw [List.dropWhile_cons_of_neg ha]

theorem TrimSpace_nil : TrimSpace [] = [] := by
  simp [TrimSpace]

theorem TrimSpace_eq_nil {s : GoString} (h : ∀ c ∈ s, isSpace c = true) : TrimSpace s = [] := by
  unfold TrimSpace
  rw [List.dropWhile_eq_nil_iff.mpr h]
  simp

theorem TrimSpace_rdropWhile (s : GoString) :
    TrimSpace (s.rdropWhile isSpace) = TrimSpace s := by
  unfold TrimSpace
  rw [dropWhile_rdropWhile, List.rdropWhile_idempotent]

/-! ## Lemmas on the parsing loop -/

theorem foldl_appendRecord {τ : Type} (env : Env τ) (l : List GoString)
    (acc : List (Commit τ)) :
    l.foldl (appendRecord env) acc = acc ++ l.filterMap (parseRecord env) := by
  induction l generalizing acc with
  | nil => simp
  | cons a l ih =>
    simp only [List.foldl_cons, List.filterMap_cons]
    rw [ih]
    unfold appendRecord
    cases parseRecord env a <;> simp

theorem parseCommits_eq {τ : Type} (env : Env τ) (output : GoString) :
    parseCommits env output = (Split output recordSep).filterMap (parseRecord env) := by
  unfold parseCommits
  rw [foldl_appendRecord]
  simp

theorem parseRecord_nil {τ : Type} (env : Env τ) : parseRecord env [] = none := by
  simp [parseRecord, TrimSpace_nil]

theorem recordSep_eq : recordSep = '<' :: "END_COMMIT>\n".toList := rfl

theorem recordSep_head_fresh : '<' ∉ "END_COMMIT>\n".toList := by decide

theorem recordSep_ne_nil : recordSep ≠ [] := by decide

theorem endMarker_infix_recordSep : endMarker <:+: recordSep :=
  ⟨[], ['\n'], by decide⟩

theorem not_recordSep_of_not_endMarker {s : GoString} (h : Contains s endMarker = false) :
    ¬ recordSep <:+: s := by
  intro hin
  have : endMarker <:+: s := endMarker_infix_recordSep.trans hin
  rw [(Contains_iff_inside s endMarker).mpr this] at h
  cases h

theorem parseCommits_nil {τ : Type} (env : Env τ) : parseCommits env [] = [] := by
  rw [parseCommits_eq, Split_of_absent recordSep_ne_nil]
  · simp [parseRecord_nil]
  · intro h
    exact recordSep_ne_nil (List.eq_nil_of_infix_nil h)

/-- A first record that does not contain the separator is parsed on its own. -/
theorem parseCommits_cons {τ : Type} (env : Env τ) (b rest : GoString)
    (hb : ¬ recordSep <:+: b) :
    parseCommits env (b ++ recordSep ++ rest) =
      (parseRecord env b).toList ++ parseCommits env rest := by
  rw [parseCommits_eq, parseCommits_eq, recordSep_eq,
    Split_append_sep recordSep_head_fresh b rest (by rw [← recordSep_eq]; exact hb),
    List.filterMap_cons]
  cases parseRecord env b <;> simp

theorem parseCommits_append_sep {τ : Type} (env : Env τ) : ∀ (n : Nat) (p rest : GoString),
    p.length ≤ n →
    parseCommits env (p ++ recordSep ++ rest) =
      parseCommits env (p ++ recordSep) ++ parseCommits env rest := by
  intro n
  induction n using Nat.strong_induction_on with
  | _ n ih =>
    intro p rest hp
    cases hc : cut recordSep p with
    | none =>
      have hb := (cut_eq_none recordSep_ne_nil).mp hc
      have h1 := parseCommits_cons env p rest hb
      have h2 := parseCommits_cons env p [] hb
      rw [List.append_nil] at h2
      rw [h1, h2, parseCommits_nil]
      simp
    | some q =>
      obtain ⟨b, a⟩ := q
      obtain ⟨hq, hb⟩ := cut_eq_some hc
      have hb := hb recordSep_ne_nil
      have hlt := cut_length_lt recordSep_ne_nil hc
      have e1 : p ++ recordSep ++ rest = b ++ recordSep ++ (a ++ recordSep ++ rest) := by
        rw [hq]; simp [List.append_assoc]
      have e2 : p ++ recordSep = b ++ recordSep ++ (a ++ recordSep) := by
        rw [hq]; simp [List.append_assoc]
      rw [e1, e2, parseCommits_cons env b _ hb, parseCommits_cons env b _ hb,
        ih a.length (by omega) a rest (le_refl _)]
      simp [List.append_assoc]

/-- Text that is empty or ends with the end marker line is parsed independently of what
follows it. -/
theorem parseCommits_append {τ : Type} (env : Env τ) (pre rest : GoString)
    (hpre : pre = [] ∨ recordSep <:+ pre) :
    parseCommits env (pre ++ rest) = parseCommits env pre ++ parseCommits env rest := by
  rcases hpre with rfl | ⟨p, rfl⟩
  · simp [parseCommits_nil]
  · exact parseCommits_append_sep env p.length p rest (le_refl _)

/-- A record in the middle of a log contributes exactly what `parseRecord` gives for it. -/
theorem parseCommits_middle {τ : Type} (env : Env τ) (pre r post : GoString)
    (hpre : pre = [] ∨ recordSep <:+ pre) (hr : Contains r endMarker = false) :
    parseCommits env (pre ++ r ++ recordSep ++ post) =
      parseCommits env pre ++ (parseRecord env r).toList ++ parseCommits env post := by
  have e : pre ++ r ++ recordSep ++ post = pre ++ (r ++ recordSep ++ post) := by
    simp [List.append_assoc]
  rw [e, parseCommits_append env pre _ hpre,
    parseCommits_cons env r post (not_recordSep_of_not_endMarker hr)]
  simp [List.append_assoc]

theorem parseRecord_short {τ : Type} (env : Env τ) (r : GoString)
    (h : (Split (TrimSpace r) "\n".toList).length < 4) : parseRecord env r = none := by
  unfold parseRecord
  simp only
  by_cases h0 : TrimSpace r = []
  · rw [if_pos h0]
  · rw [if_neg h0, if_pos h]

/-! ## Lemmas on one record -/

theorem newline_eq : "\n".toList = ['\n'] := rfl

theorem Split_nil_newline : Split [] "\n".toList = [[]] := by decide

theorem parseRecord_ok {τ : Type} (env : Env τ) (r : GoString) (date : τ)
    (h4 : 4 ≤ (recordLines r).length)
    (hd : parseCommitDate env ((recordLines r).getD 2 []) = some date) :
    parseRecord env r = some
      ⟨(recordLines r).getD 0 [], (recordLines r).getD 1 [], date, (recordLines r).getD 3 [],
        if (recordLines r).length > 4 then TrimSpace (Join ((recordLines r).drop 4) "\n".toList)
        else [],
        (getCommitChanges env ((recordLines r).getD 0 [])).files,
        (getCommitChanges env ((recordLines r).getD 0 [])).additions,
        (getCommitChanges env ((recordLines r).getD 0 [])).deletions⟩ := by
  unfold recordLines at h4 hd ⊢
  have h0 : TrimSpace r ≠ [] := by
    intro h
    rw [h, Split_nil_newline] at h4
    simp at h4
  unfold parseRecord
  simp only
  rw [if_neg h0, if_neg (by omega), hd]

theorem parseRecord_changes {τ : Type} (env : Env τ) (r : GoString) (date : τ)
    (h4 : 4 ≤ (recordLines r).length)
    (hd : parseCommitDate env ((recordLines r).getD 2 []) = some date) :
    ∃ c, parseRecord env r = some c ∧ c.Hash = (recordLines r).getD 0 [] ∧
      c.Files = (getCommitChanges env ((recordLines r).getD 0 [])).files ∧
      c.Additions = (getCommitChanges env ((recordLines r).getD 0 [])).additions ∧
      c.Deletions = (getCommitChanges env ((recordLines r).getD 0 [])).deletions :=
  ⟨_, parseRecord_ok env r date h4 hd, rfl, rfl, rfl, rfl⟩

theorem parseRecord_bad_date {τ : Type} (env : Env τ) (r : GoString)
    (hd : parseCommitDate env ((recordLines r).getD 2 []) = none) :
    parseRecord env r = none := by
  unfold recordLines at hd
  unfold parseRecord
  simp only
  by_cases h0 : TrimSpace r = []
  · rw [if_pos h0]
  · rw [if_neg h0]
    by_cases h4 : (Split (TrimSpace r) "\n".toList).length < 4
    · rw [if_pos h4]
    · rw [if_neg h4, hd]

theorem getCommitChanges_err {τ : Type} (env : Env τ) (hash : GoString)
    (herr : (getCommitChanges env hash).err ≠ none) :
    (getCommitChanges env hash).additions = 0 ∧ (getCommitChanges env hash).deletions = 0 ∧
    (∀ e, env.showNameOnly hash = .error e → (getCommitChanges env hash).files = []) ∧
    (∀ output, env.showNameOnly hash = .ok output → (getCommitChanges env hash).files =
      (Split (TrimSpace output) "\n".toList).filter (fun file => file ≠ [])) := by
  unfold getCommitChanges at herr ⊢
  cases h1 : env.showNameOnly hash with
  | error e => simp
  | ok out =>
    cases h2 : env.showStat hash with
    | error e => simp
    | ok out2 => simp [h1, h2] at herr

theorem infix_append_newline {m : GoString} (hm : '\n' ∉ m) (hne : m ≠ []) :
    ∀ (x y : GoString), m <:+: x ++ '\n' :: y → m <:+: x ∨ m <:+: y := by
  intro x
  induction x with
  | nil =>
    intro y h
    rcases List.infix_cons_iff.mp h with hp | hi
    · exfalso
      obtain ⟨w, hw⟩ := hp
      cases m with
      | nil => exact hne rfl
      | cons c m =>
        simp only [List.cons_append, List.cons.injEq] at hw
        apply hm
        rw [hw.1]
        simp
    · exact Or.inr hi
  | cons c x ih =>
    intro y h
    rcases List.infix_cons_iff.mp h with hp | hi
    · have hp2 : (c :: x) <+: (c :: x) ++ '\n' :: y := List.prefix_append _ _
      rcases List.prefix_or_prefix_of_prefix hp hp2 with h1 | h1
      · exact Or.inl h1.isInfix
      · obtain ⟨e, he⟩ := h1
        obtain ⟨w, hw⟩ := hp
        cases e with
        | nil =>
          left
          rw [← he]
          simp
        | cons z e =>
          exfalso
          have hw2 : (c :: x) ++ ((z :: e) ++ w) = (c :: x) ++ '\n' :: y := by
            rw [← List.append_assoc, he]
            exact hw
          have hw3 := List.append_cancel_left hw2
          simp only [List.cons_append, List.cons.injEq] at hw3
          apply hm
          rw [← he, hw3.1]
          simp
    · rcases ih y hi with h1 | h1
      · exact Or.inl (List.infix_cons h1)
      · exact Or.inr h1

theorem endMarker_no_newline : '\n' ∉ endMarker := by decide

theorem endMarker_ne_nil : endMarker ≠ [] := by decide

theorem not_Contains_append_newline {x y : GoString} (hx : Contains x endMarker = false)
    (hy : Contains y endMarker = false) : Contains (x ++ '\n' :: y) endMarker = false := by
  rw [Bool.eq_false_iff] at hx hy ⊢
  intro h
  rcases infix_append_newline endMarker_no_newline endMarker_ne_nil x y
    ((Contains_iff_inside _ _).mp h) with h1 | h1
  · exact hx ((Contains_iff_inside _ _).mpr h1)
  · exact hy ((Contains_iff_inside _ _).mpr h1)

theorem Split_newline_cons (b rest : GoString) (hb : '\n' ∉ b) :
    Split (b ++ '\n' :: rest) "\n".toList = b :: Split rest "\n".toList := by
  have h := Split_append_sep (x := '\n') (t := []) (by simp) b rest (by
    intro hin
    apply hb
    obtain ⟨u, v, huv⟩ := hin
    rw [← huv]
    simp)
  rw [newline_eq]
  simpa [List.append_assoc] using h

theorem Split_newline_single (b : GoString) (hb : '\n' ∉ b) :
    Split b "\n".toList = [b] := by
  apply Split_of_absent (by decide)
  intro hin
  apply hb
  obtain ⟨u, v, huv⟩ := hin
  rw [← huv]
  simp [newline_eq]

theorem isSpace_newline : isSpace '\n' = true := by decide

theorem endsWithNonSpace_concat {s : GoString} (h : endsWithNonSpace s = true) :
    ∃ init c, s = init ++ [c] ∧ isSpace c = false := by
  unfold endsWithNonSpace at h
  cases hl : s.getLast? with
  | none => simp [hl] at h
  | some c =>
    obtain ⟨init, rfl⟩ := List.getLast?_eq_some_iff.mp hl
    refine ⟨init, c, rfl, ?_⟩
    simpa [hl] using h

theorem startsWithNonSpace_cons {s : GoString} (h : startsWithNonSpace s = true) :
    ∃ c rest, s = c :: rest ∧ isSpace c = false := by
  cases s with
  | nil => simp [startsWithNonSpace] at h
  | cons c rest => exact ⟨c, rest, rfl, by simpa [startsWithNonSpace] using h⟩

/-- Lines of a record printed by the log format, once trimmed: the four header lines as
supplied, then the lines of the body without its trailing white space. -/
theorem recordLines_record (hash author date subject body : GoString)
    (hh : '\n' ∉ hash) (ha : '\n' ∉ author) (hd : '\n' ∉ date) (hs : '\n' ∉ subject)
    (hstart : startsWithNonSpace hash = true)
    (hend : hasNonSpace body = true ∨ endsWithNonSpace subject = true) :
    ∃ rest, recordLines
        (hash ++ '\n' :: (author ++ '\n' :: (date ++ '\n' :: (subject ++ '\n' :: (body ++ ['\n'])))))
        = hash :: author :: date :: subject :: rest ∧
      (if rest.length > 0 then TrimSpace (Join rest "\n".toList) else []) = TrimSpace body := by
  obtain ⟨c0, hash0, rfl, hc0⟩ := startsWithNonSpace_cons hstart
  have hc0n : ¬ isSpace c0 = true := by simp [hc0]
  unfold recordLines TrimSpace
  rw [List.cons_append, List.dropWhile_cons_of_neg hc0n, ← List.cons_append]
  by_cases hb : hasNonSpace body = true
  · -- the body holds the last non-space character
    have hB : body.rdropWhile isSpace ≠ [] := by
      intro h
      have hall := List.rdropWhile_eq_nil_iff.mp h
      obtain ⟨c, hc, hcs⟩ := List.any_eq_true.mp hb
      rw [hall c hc] at hcs
      simp at hcs
    have e : (c0 :: hash0) ++ '\n' :: (author ++ '\n' :: (date ++ '\n' :: (subject ++ '\n' ::
        (body ++ ['\n'])))) =
        ((c0 :: hash0) ++ '\n' :: (author ++ '\n' :: (date ++ '\n' :: (subject ++ ['\n'])))) ++
        (body ++ ['\n']) := by simp [List.append_assoc]
    have hB2 : (body ++ ['\n']).rdropWhile isSpace = body.rdropWhile isSpace :=
      List.rdropWhile_concat_pos _ _ _ isSpace_newline
    rw [e, rdropWhile_append, hB2, if_neg hB]
    refine ⟨Split (body.rdropWhile isSpace) "\n".toList, ?_, ?_⟩
    · have e2 : ((c0 :: hash0) ++ '\n' :: (author ++ '\n' :: (date ++ '\n' ::
          (subject ++ ['\n'])))) ++ body.rdropWhile isSpace =
          (c0 :: hash0) ++ '\n' :: (author ++ '\n' :: (date ++ '\n' :: (subject ++ '\n' ::
          body.rdropWhile isSpace))) := by simp [List.append_assoc]
      rw [e2, Split_newline_cons _ _ hh, Split_newline_cons _ _ ha, Split_newline_cons _ _ hd,
        Split_newline_cons _ _ hs]
    · have hne := Split_ne_nil (body.rdropWhile isSpace) "\n".toList (by decide)
      rw [if_pos (List.length_pos.mpr hne), Join_Split (by decide) _ _ (le_refl _)]
      exact TrimSpace_rdropWhile body
  · -- the body is blank: the subject holds the last non-space character
    have hs2 : endsWithNonSpace subject = true := by
      rcases hend with h | h
      · exact absurd h hb
      · exact h
    obtain ⟨init, c, rfl, hc⟩ := endsWithNonSpace_concat hs2
    have hcn : ¬ isSpace c = true := by simp [hc]
    have hall : ∀ x ∈ body, isSpace x = true := by
      intro x hx
      by_contra hx2
      apply hb
      exact List.any_eq_true.mpr ⟨x, hx, by simpa using hx2⟩
    have htail : ('\n' :: (body ++ ['\n'])).rdropWhile isSpace = [] := by
      apply List.rdropWhile_eq_nil_iff.mpr
      intro x hx
      simp only [List.mem_cons, List.mem_append, List.mem_singleton, List.not_mem_nil,
        or_false] at hx
      rcases hx with rfl | hx | rfl
      · exact isSpace_newline
      · exact hall x hx
      · exact isSpace_newline
    have e : (c0 :: hash0) ++ '\n' :: (author ++ '\n' :: (date ++ '\n' :: ((init ++ [c]) ++
        '\n' :: (body ++ ['\n'])))) =
        (((c0 :: hash0) ++ '\n' :: (author ++ '\n' :: (date ++ '\n' :: init))) ++ [c]) ++
        ('\n' :: (body ++ ['\n'])) := by simp [List.append_assoc]
    rw [e, rdropWhile_append, htail, if_pos rfl, List.rdropWhile_concat_neg _ _ _ hcn]
    refine ⟨[], ?_, ?_⟩
    · have e2 : (((c0 :: hash0) ++ '\n' :: (author ++ '\n' :: (date ++ '\n' :: init))) ++ [c]) =
          (c0 :: hash0) ++ '\n' :: (author ++ '\n' :: (date ++ '\n' :: (init ++ [c]))) := by
        simp [List.append_assoc]
      rw [e2, Split_newline_cons _ _ hh, Split_newline_cons _ _ ha, Split_newline_cons _ _ hd,
        Split_newline_single _ hs]
    · simp only [List.length_nil, gt_iff_lt, lt_self_iff_false, if_false]
      exact (TrimSpace_eq_nil hall).symm

/-- Header lines of a record printed by the log format, once trimmed, when the subject or
the body holds a character that is not white space: hash, author and date as supplied, then
the subject line. -/
theorem recordLines_header (hash author date subject body : GoString)
    (hh : '\n' ∉ hash) (ha : '\n' ∉ author) (hd : '\n' ∉ date) (hs : '\n' ∉ subject)
    (hstart : startsWithNonSpace hash = true)
    (hend : hasNonSpace subject = true ∨ hasNonSpace body = true) :
    ∃ s0 rest, recordLines
        (hash ++ '\n' :: (author ++ '\n' :: (date ++ '\n' :: (subject ++ '\n' :: (body ++ ['\n'])))))
        = hash :: author :: date :: s0 :: rest := by
  by_cases hb : hasNonSpace body = true
  · obtain ⟨rest, h1, _⟩ :=
      recordLines_record hash author date subject body hh ha hd hs hstart (Or.inl hb)
    exact ⟨subject, rest, h1⟩
  · have hsub : hasNonSpace subject = true := by
      rcases hend with h | h
      · exact h
      · exact absurd h hb
    obtain ⟨c0, hash0, rfl, hc0⟩ := startsWithNonSpace_cons hstart
    have hc0n : ¬ isSpace c0 = true := by simp [hc0]
    have hS : subject.rdropWhile isSpace ≠ [] := by
      intro h
      have hall := List.rdropWhile_eq_nil_iff.mp h
      obtain ⟨c, hc, hcs⟩ := List.any_eq_true.mp hsub
      rw [hall c hc] at hcs
      simp at hcs
    have hall : ∀ x ∈ body, isSpace x = true := by
      intro x hx
      by_contra hx2
      apply hb
      exact List.any_eq_true.mpr ⟨x, hx, by simpa using hx2⟩
    have htail : ('\n' :: (body ++ ['\n'])).rdropWhile isSpace = [] := by
      apply List.rdropWhile_eq_nil_iff.mpr
      intro x hx
      simp only [List.mem_cons, List.mem_append, List.mem_singleton, List.not_mem_nil,
        or_false] at hx
      rcases hx with rfl | hx | rfl
      · exact isSpace_newline
      · exact hall x hx
      · exact isSpace_newline
    have hs2 : '\n' ∉ subject.rdropWhile isSpace :=
      fun hmem => hs ((List.rdropWhile_prefix isSpace subject).subset hmem)
    refine ⟨subject.rdropWhile isSpace, [], ?_⟩
    unfold recordLines TrimSpace
    rw [List.cons_append, List.dropWhile_cons_of_neg hc0n, ← List.cons_append]
    have e : (c0 :: hash0) ++ '\n' :: (author ++ '\n' :: (date ++ '\n' :: (subject ++
        '\n' :: (body ++ ['\n'])))) =
        (((c0 :: hash0) ++ '\n' :: (author ++ '\n' :: (date ++ ['\n']))) ++ subject) ++
        ('\n' :: (body ++ ['\n'])) := by simp [List.append_assoc]
    rw [e, rdropWhile_append, htail, if_pos rfl, rdropWhile_append, if_neg hS]
    have e2 : ((c0 :: hash0) ++ '\n' :: (author ++ '\n' :: (date ++ ['\n']))) ++
        subject.rdropWhile isSpace =
        (c0 :: hash0) ++ '\n' :: (author ++ '\n' :: (date ++ '\n' ::
          subject.rdropWhile isSpace)) := by simp [List.append_assoc]
    rw [e2, Split_newline_cons _ _ hh, Split_newline_cons _ _ ha, Split_newline_cons _ _ hd,
      Split_newline_single _ hs2]

/-! ## The parsing loop of `getCommits` -/

/-- C1 (amended): for every record text of the form hash, author, date, subject, body each
followed by a newline and then the end marker line, in which hash, author, date and subject are
single lines, the date line is parseable, no field contains the end marker, the hash starts with
a character that is not white space, and either the body holds a character that is not white
space or the subject ends with one, the parsing loop of `getCommits` yields exactly one commit
whose Hash, Author and Subject are the supplied ones, whose Date is the parsed date line and
whose Body is the supplied body with leading and trailing white space removed, whatever the
change-stats queries return. -/
theorem record_fields_recovered {τ : Type} (env : Env τ)
    (hash author date subject body : GoString)
    (hh : '\n' ∉ hash) (ha : '\n' ∉ author) (hd : '\n' ∉ date) (hs : '\n' ∉ subject)
    (hparse : (parseCommitDate env date).isSome = true)
    (hmh : Contains hash endMarker = false) (hma : Contains author endMarker = false)
    (hmd : Contains date endMarker = false) (hms : Contains subject endMarker = false)
    (hmb : Contains body endMarker = false)
    (hstart : startsWithNonSpace hash = true)
    (hend : hasNonSpace body = true ∨ endsWithNonSpace subject = true) :
    ∃ c, parseCommits env (recordText hash author date subject body) = [c] ∧
      c.Hash = hash ∧ c.Author = author ∧ c.Subject = subject ∧ c.Body = TrimSpace body ∧
      some c.Date = parseCommitDate env date := by
  obtain ⟨rest, hlines, hbody⟩ :=
    recordLines_record hash author date subject body hh ha hd hs hstart hend
  generalize hchunk : hash ++ '\n' :: (author ++ '\n' :: (date ++ '\n' :: (subject ++ '\n' ::
    (body ++ ['\n'])))) = chunk at hlines
  have hm : Contains chunk endMarker = false := by
    rw [← hchunk]
    exact not_Contains_append_newline hmh (not_Contains_append_newline hma
      (not_Contains_append_newline hmd (not_Contains_append_newline hms
        (not_Contains_append_newline hmb (by decide)))))
  have e : recordText hash author date subject body = [] ++ chunk ++ recordSep ++ [] := by
    rw [← hchunk]
    simp [recordText, List.append_assoc]
  obtain ⟨dt, hdt⟩ := Option.isSome_iff_exists.mp hparse
  have hrec := parseRecord_ok env chunk dt (by rw [hlines]; simp) (by rw [hlines]; simpa using hdt)
  rw [e, parseCommits_middle env [] chunk [] (Or.inl rfl) hm, parseCommits_nil, hrec]
  refine ⟨_, rfl, ?_, ?_, ?_, ?_, ?_⟩
  · simp [hlines]
  · simp [hlines]
  · simp [hlines]
  · rw [← hbody]
    simp [hlines]
  · exact hdt.symm

/-- Witness of `record_fields_recovered`: a record with a three-line body. -/
theorem record_fields_recovered_witness :
    ∃ c, parseCommits bothSucceed (recordText "3f2a9c1".toList "Ann".toList primaryLayout
        "Add parser".toList "First line\n\nThird line  ".toList) = [c] ∧
      c.Hash = "3f2a9c1".toList ∧ c.Author = "Ann".toList ∧ c.Subject = "Add parser".toList ∧
      c.Body = TrimSpace "First line\n\nThird line  ".toList ∧
      some c.Date = parseCommitDate bothSucceed primaryLayout :=
  record_fields_recovered bothSucceed "3f2a9c1".toList "Ann".toList primaryLayout
    "Add parser".toList "First line\n\nThird line  ".toList
    (by decide) (by decide) (by decide) (by decide) (by decide) (by decide) (by decide)
    (by decide) (by decide) (by decide) (by decide) (by decide)

/-- C1 (as stated, refuted): a record of the stated form whose subject and body are empty
yields no commit at all, and a record whose hash line starts with a space yields a commit whose
Hash is not the supplied one. -/
theorem blank_message_record_dropped :
    ('\n' ∉ "3f2a9c1".toList ∧ '\n' ∉ "Ann".toList ∧ '\n' ∉ primaryLayout ∧
      (parseCommitDate bothSucceed primaryLayout).isSome = true ∧
      Contains "3f2a9c1".toList endMarker = false ∧ Contains "Ann".toList endMarker = false ∧
      Contains primaryLayout endMarker = false ∧ Contains [] endMarker = false ∧
      parseCommits bothSucceed (recordText "3f2a9c1".toList "Ann".toList primaryLayout [] [])
        = []) ∧
    ('\n' ∉ " 3f2a9c1".toList ∧ '\n' ∉ "Fix".toList ∧
      Contains " 3f2a9c1".toList endMarker = false ∧ Contains "Fix".toList endMarker = false ∧
      (parseCommits bothSucceed
        (recordText " 3f2a9c1".toList "Ann".toList primaryLayout "Fix".toList [])).map
          Commit.Hash = ["3f2a9c1".toList]) := by
  decide

/-- C2: for every log text `pre` that is empty or ends with the end marker line, every log text
`post`, and every chunk `bad` that does not contain the end marker and has fewer than four
lines once trimmed, `getCommits` on `pre ++ bad ++ "<END_COMMIT>\n" ++ post` returns exactly
what it returns on `pre ++ post`, and the loop body yields no commit for `bad`. -/
theorem short_record_dropped {τ : Type} (env : Env τ) (pre post bad : GoString)
    (hpre : pre = [] ∨ recordSep <:+ pre)
    (hbad : Contains bad endMarker = false)
    (hshort : (recordLines bad).length < 4) :
    getCommits env (.ok (pre ++ bad ++ recordSep ++ post)) = getCommits env (.ok (pre ++ post)) ∧
    parseRecord env bad = none := by
  have hnone := parseRecord_short env bad hshort
  refine ⟨?_, hnone⟩
  unfold getCommits
  simp only
  rw [parseCommits_middle env pre bad post hpre hbad, hnone, parseCommits_append env pre post hpre]
  simp

/-- Witness of `short_record_dropped`: a two-line chunk between two good records. -/
theorem short_record_dropped_witness :
    (twoCommitLog = [] ∨ recordSep <:+ twoCommitLog) ∧
    Contains shortChunk endMarker = false ∧ (recordLines shortChunk).length < 4 ∧
    getCommits bothSucceed (.ok (twoCommitLog ++ shortChunk ++ recordSep ++ twoCommitLog)) =
      getCommits bothSucceed (.ok (twoCommitLog ++ twoCommitLog)) ∧
    parseRecord bothSucceed shortChunk = none :=
  ⟨by decide, by decide, by decide,
    short_record_dropped bothSucceed twoCommitLog twoCommitLog shortChunk (by decide) (by decide)
      (by decide)⟩

/-- C3 (amended): for every log output made of `k` records of the log format (hash, author,
date, subject, body each followed by a newline, then the end marker line) in which hash,
author, date and subject are single lines, the date is parseable, no field contains the end
marker, the hash starts with a character that is not white space, and the subject or the body
holds a character that is not white space, `getCommits` returns exactly `k` commits and the
hash of the i-th commit is the hash of the i-th record: none dropped, duplicated or
reordered. -/
theorem commits_in_log_order {τ : Type} (env : Env τ) (records : List LogRecord)
    (hwf : ∀ r ∈ records,
      '\n' ∉ r.hash ∧ '\n' ∉ r.author ∧ '\n' ∉ r.date ∧ '\n' ∉ r.subject ∧
      (parseCommitDate env r.date).isSome = true ∧
      Contains r.hash endMarker = false ∧ Contains r.author endMarker = false ∧
      Contains r.date endMarker = false ∧ Contains r.subject endMarker = false ∧
      Contains r.body endMarker = false ∧
      startsWithNonSpace r.hash = true ∧
      (hasNonSpace r.subject = true ∨ hasNonSpace r.body = true)) :
    ∃ commits, getCommits env (.ok (records.flatMap LogRecord.text)) = .ok commits ∧
      commits.length = records.length ∧
      commits.map Commit.Hash = records.map LogRecord.hash := by
  refine ⟨_, rfl, ?_⟩
  induction records with
  | nil => simp [parseCommits_nil]
  | cons r rs ih =>
    obtain ⟨hh, ha, hd, hs, hp, hmh, hma, hmd, hms, hmb, hstart, hend⟩ := hwf r (by simp)
    obtain ⟨dt, hdt⟩ := Option.isSome_iff_exists.mp hp
    obtain ⟨s0, rest, hlines⟩ :=
      recordLines_header r.hash r.author r.date r.subject r.body hh ha hd hs hstart hend
    generalize hchunk : r.hash ++ '\n' :: (r.author ++ '\n' :: (r.date ++ '\n' ::
      (r.subject ++ '\n' :: (r.body ++ ['\n'])))) = chunk at hlines
    have hm : Contains chunk endMarker = false := by
      rw [← hchunk]
      exact not_Contains_append_newline hmh (not_Contains_append_newline hma
        (not_Contains_append_newline hmd (not_Contains_append_newline hms
          (not_Contains_append_newline hmb (by decide)))))
    obtain ⟨c, hrec, hhash, _⟩ := parseRecord_changes env chunk dt (by rw [hlines]; simp)
      (by rw [hlines]; simpa using hdt)
    have hhash2 : c.Hash = r.hash := by rw [hhash, hlines]; simp
    have ih2 := ih (fun x hx => hwf x (by simp [hx]))
    have e : (r :: rs).flatMap LogRecord.text =
        chunk ++ recordSep ++ rs.flatMap LogRecord.text := by
      rw [← hchunk]
      simp [List.flatMap_cons, LogRecord.text, recordText, List.append_assoc]
    rw [e, parseCommits_cons env chunk _ (not_recordSep_of_not_endMarker hm), hrec]
    simp only [Option.toList_some, List.singleton_append, List.length_cons, List.map_cons]
    exact ⟨by rw [ih2.1], by rw [hhash2, ih2.2]⟩

/-- Witness of `commits_in_log_order`: two records, the second with a subject that ends with
a space and no body. -/
theorem commits_in_log_order_witness :
    ∃ commits, getCommits bothSucceed (.ok ([commitA, commitC].flatMap LogRecord.text)) =
        .ok commits ∧
      commits.length = [commitA, commitC].length ∧
      commits.map Commit.Hash = ["3f2a9c1".toList, "77be0d4".toList] :=
  commits_in_log_order bothSucceed [commitA, commitC] (by decide)

/-- C3 (as stated, refuted): a log of three records of the log format, all with parseable
dates, whose second record has an empty subject and an empty body, gives two commits: the
second record is dropped.  And the commit of a record whose hash line starts with a space does
not carry the hash of the record. -/
theorem empty_message_commit_missing :
    ((∀ r ∈ [commitA, commitB, commitC], (parseCommitDate bothSucceed r.date).isSome = true) ∧
      ∃ commits, getCommits bothSucceed (.ok ([commitA, commitB, commitC].flatMap
          LogRecord.text)) = .ok commits ∧
        commits.length = 2 ∧
        commits.map Commit.Hash = ["3f2a9c1".toList, "77be0d4".toList]) ∧
    (parseCommits bothSucceed (LogRecord.text
      ⟨" 9e8d7c6".toList, "Ann".toList, primaryLayout, "Fix".toList, []⟩)).map Commit.Hash =
        ["9e8d7c6".toList] :=
  ⟨⟨by decide, _, rfl, by decide, by decide⟩, by decide⟩

/-- C7 (amended): for every record that survives date parsing, if `getCommitChanges` returns
an error, `getCommits` still appends the commit, in its place, with Additions = 0 and
Deletions = 0; its Files are empty when the name-only query failed, and are the non-empty
lines of the name-only output when only the stat query failed. -/
theorem failed_lookup_keeps_commit {τ : Type} (env : Env τ) (pre post r : GoString) (date : τ)
    (hpre : pre = [] ∨ recordSep <:+ pre)
    (hr : Contains r endMarker = false)
    (h4 : 4 ≤ (recordLines r).length)
    (hd : parseCommitDate env ((recordLines r).getD 2 []) = some date)
    (herr : (getCommitChanges env ((recordLines r).getD 0 [])).err ≠ none) :
    ∃ c, getCommits env (.ok (pre ++ r ++ recordSep ++ post)) =
        .ok (parseCommits env pre ++ c :: parseCommits env post) ∧
      c.Hash = (recordLines r).getD 0 [] ∧ c.Additions = 0 ∧ c.Deletions = 0 ∧
      (∀ e, env.showNameOnly ((recordLines r).getD 0 []) = .error e → c.Files = []) ∧
      (∀ output, env.showNameOnly ((recordLines r).getD 0 []) = .ok output →
        c.Files = (Split (TrimSpace output) "\n".toList).filter (fun file => file ≠ [])) := by
  obtain ⟨ha, hdel, hf1, hf2⟩ := getCommitChanges_err env _ herr
  obtain ⟨c, hrec, hhash, hfiles, hadd, hdels⟩ := parseRecord_changes env r date h4 hd
  refine ⟨c, ?_, hhash, by rw [hadd, ha], by rw [hdels, hdel], ?_, ?_⟩
  · unfold getCommits
    simp only
    rw [parseCommits_middle env pre r post hpre hr, hrec]
    simp
  · intro e he
    rw [hfiles, hf1 e he]
  · intro output ho
    rw [hfiles, hf2 output ho]

/-- Witness of `failed_lookup_keeps_commit`: the stat query fails for the second of three
records. -/
theorem failed_lookup_keeps_commit_witness :
    ∃ c, getCommits statFails (.ok (twoCommitLog ++ secondRecord ++ recordSep ++ twoCommitLog)) =
        .ok (parseCommits statFails twoCommitLog ++ c :: parseCommits statFails twoCommitLog) ∧
      c.Hash = "77be0d4".toList ∧ c.Additions = 0 ∧ c.Deletions = 0 ∧
      (∀ e, statFails.showNameOnly "77be0d4".toList = .error e → c.Files = []) ∧
      (∀ output, statFails.showNameOnly "77be0d4".toList = .ok output →
        c.Files = (Split (TrimSpace output) "\n".toList).filter (fun file => file ≠ [])) :=
  failed_lookup_keeps_commit statFails twoCommitLog twoCommitLog secondRecord ()
    (by decide) (by decide) (by decide) (by decide) (by decide)

/-- C7 (as stated, refuted): the stat query fails, `getCommitChanges` returns an error, and
the commit that `getCommits` appends still lists the file of the name-only query. -/
theorem failed_stat_keeps_files :
    (getCommitChanges statFails "77be0d4".toList).err ≠ none ∧
    (parseRecord statFails secondRecord).map Commit.Files = some ["main.go".toList] ∧
    (parseRecord statFails secondRecord).map Commit.Files ≠ some [] := by
  decide

/-- C8: whenever the log command succeeds `getCommits` returns a nil error, for every log
output; and a record with at least four lines whose date line parses in neither the primary
nor the fallback layout yields no commit, while the result for the whole log is exactly the
result for the log without that record. -/
theorem unparseable_date_skipped {τ : Type} (env : Env τ) (pre post bad : GoString)
    (hpre : pre = [] ∨ recordSep <:+ pre)
    (hbad : Contains bad endMarker = false)
    (_hlines : 4 ≤ (recordLines bad).length)
    (hprimary : env.timeParse primaryLayout ((recordLines bad).getD 2 []) = none)
    (hfallback : env.timeParse fallbackLayout ((recordLines bad).getD 2 []) = none) :
    (∀ output, ∃ commits, getCommits env (.ok output) = .ok commits) ∧
    parseRecord env bad = none ∧
    getCommits env (.ok (pre ++ bad ++ recordSep ++ post)) = getCommits env (.ok (pre ++ post)) := by
  have hnone : parseRecord env bad = none := by
    apply parseRecord_bad_date
    unfold parseCommitDate
    rw [hprimary, hfallback]
  refine ⟨fun output => ⟨_, rfl⟩, hnone, ?_⟩
  unfold getCommits
  simp only
  rw [parseCommits_middle env pre bad post hpre hbad, hnone, parseCommits_append env pre post hpre]
  simp

/-- Witness of `unparseable_date_skipped`: a record dated "yesterday" between good records. -/
theorem unparseable_date_skipped_witness :
    (∀ output, ∃ commits, getCommits bothSucceed (.ok output) = .ok commits) ∧
    parseRecord bothSucceed badDateChunk = none ∧
    getCommits bothSucceed (.ok (twoCommitLog ++ badDateChunk ++ recordSep ++ twoCommitLog)) =
      getCommits bothSucceed (.ok (twoCommitLog ++ twoCommitLog)) :=
  unparseable_date_skipped bothSucceed twoCommitLog twoCommitLog badDateChunk
    (by decide) (by decide) (by decide) (by decide) (by decide)

/-! ## Decimal numerals and `%d` -/

theorem isDigit_cases {c : Char} (h : c.isDigit = true) : c ∈ "0123456789".toList := by
  have hb : 48 ≤ c.toNat ∧ c.toNat ≤ 57 := by
    simp only [Char.isDigit, Bool.and_eq_true, decide_eq_true_eq] at h
    exact ⟨h.1, h.2⟩
  have hc : c = Char.ofNat c.toNat := (Char.ofNat_toNat c).symm
  generalize c.toNat = n at hb hc
  obtain ⟨h1, h2⟩ := hb
  subst hc
  interval_cases n <;> decide

theorem digitChar_isDigit {d : Nat} (h : d < 10) :
    (Nat.digitChar d).isDigit = true ∧ (Nat.digitChar d).toNat - 48 = d := by
  interval_cases d <;> decide

theorem decVal_concat (ds : GoString) (c : Char) :
    decVal (ds ++ [c]) = 10 * decVal ds + (c.toNat - 48) := by
  simp [decVal, List.foldl_append]

theorem decimalLoop_spec : ∀ (fuel n : Nat) (acc : GoString), n < fuel →
    ∃ ds, decimalLoop fuel n acc = ds ++ acc ∧ ds ≠ [] ∧
      (∀ c ∈ ds, c.isDigit = true) ∧ decVal ds = n := by
  intro fuel
  induction fuel with
  | zero => intro n acc h; omega
  | succ fuel ih =>
    intro n acc h
    have hd := digitChar_isDigit (Nat.mod_lt n (by decide : 10 > 0))
    unfold decimalLoop
    simp only
    by_cases hq : n / 10 = 0
    · rw [if_pos hq]
      refine ⟨[Nat.digitChar (n % 10)], rfl, by simp, ?_, ?_⟩
      · intro c hc
        rw [List.mem_singleton.mp hc]
        exact hd.1
      · have := decVal_concat [] (Nat.digitChar (n % 10))
        simp only [List.nil_append] at this
        rw [this, hd.2]
        simp only [decVal, List.foldl_nil]
        omega
    · rw [if_neg hq]
      obtain ⟨ds, h1, _, h3, h4⟩ := ih (n / 10) (Nat.digitChar (n % 10) :: acc) (by omega)
      refine ⟨ds ++ [Nat.digitChar (n % 10)], by rw [h1]; simp, by simp, ?_, ?_⟩
      · intro c hc
        rcases List.mem_append.mp hc with hc | hc
        · exact h3 c hc
        · rw [List.mem_singleton.mp hc]
          exact hd.1
      · rw [decVal_concat, h4, hd.2]
        omega

theorem decimal_spec (n : Nat) :
    decimal n ≠ [] ∧ (∀ c ∈ decimal n, c.isDigit = true) ∧ decVal (decimal n) = n := by
  obtain ⟨ds, h1, h2, h3, h4⟩ := decimalLoop_spec (n + 1) n [] (by omega)
  unfold decimal
  rw [h1, List.append_nil]
  exact ⟨h2, h3, h4⟩

/-- A numeral followed by a space scans as its value, when the value fits an `int`. -/
theorem scanInt_decimal (n : Nat) (rest : GoString) (hn : n < 2 ^ 63) :
    scanInt (decimal n ++ ' ' :: rest) = some (n : Int) := by
  obtain ⟨hne, hdig, hval⟩ := decimal_spec n
  obtain ⟨c, ds, hcd⟩ := List.exists_cons_of_ne_nil hne
  have hc : c.isDigit = true := hdig c (by rw [hcd]; simp)
  have hcases := isDigit_cases hc
  have hc1 : c ≠ '\n' := by rintro rfl; revert hcases; decide
  have hc2 : isSpace c = false := by
    revert hcases
    simp only [String.toList, List.mem_cons, List.mem_singleton, List.not_mem_nil, or_false]
    rintro (rfl | rfl | rfl | rfl | rfl | rfl | rfl | rfl | rfl | rfl) <;> decide
  have hc3 : c ≠ '+' := by rintro rfl; revert hcases; decide
  have hc4 : c ≠ '-' := by rintro rfl; revert hcases; decide
  have hskip : skipSpace (decimal n ++ ' ' :: rest) = some (decimal n ++ ' ' :: rest) := by
    rw [hcd, List.cons_append]
    unfold skipSpace
    rw [if_neg hc1, hc2]
    simp
  have htake : (decimal n ++ ' ' :: rest).takeWhile (fun c => c.isDigit) = decimal n := by
    rw [List.takeWhile_append_of_pos (fun a ha => hdig a ha)]
    rw [List.takeWhile_cons_of_neg (by decide)]
    simp
  unfold scanInt
  rw [hskip]
  simp only
  have hhead : (decimal n ++ ' ' :: rest).head? = some c := by rw [hcd]; rfl
  rw [hhead]
  have hs1 : ¬ (some c = some '+' ∨ some c = some '-') := by
    simp only [Option.some.injEq]
    tauto
  have hs2 : ¬ (some c = some '-') := by
    simp only [Option.some.injEq]
    exact hc4
  rw [if_neg hs1, htake, if_neg hne]
  simp only [hs2, decide_False, Bool.false_eq_true, if_false]
  rw [hval]
  have h1 : (-(2 : Int) ^ 63 ≤ (n : Int) ∧ (n : Int) < (2 : Int) ^ 63) := by
    constructor
    · have : (0 : Int) ≤ n := Int.ofNat_nonneg n
      norm_num
      omega
    · exact_mod_cast hn
  rw [if_pos h1]

theorem Sscanf_decimal (n : Nat) (rest : GoString) (x : Int) (hn : n < 2 ^ 63) :
    Sscanf (decimal n ++ ' ' :: rest) x = n := by
  unfold Sscanf
  rw [scanInt_decimal n rest hn]

/-! ## The diffstat summary line -/

theorem not_Contains_of_not_mem {s substr : GoString} (c : Char) (hc : c ∈ substr)
    (hs : c ∉ s) : Contains s substr = false := by
  rw [Bool.eq_false_iff]
  intro h
  exact hs (((Contains_iff_inside s substr).mp h).subset hc)

theorem commaSpace_absent {s : GoString} (hs : ',' ∉ s) : ¬ [',', ' '] <:+: s :=
  fun h => hs (h.subset (by simp))

theorem mem_numeral_text {c : Char} {k n : Nat} {txt : GoString}
    (h : c ∈ List.replicate k ' ' ++ decimal n ++ txt) :
    c = ' ' ∨ c.isDigit = true ∨ c ∈ txt := by
  simp only [List.mem_append, List.mem_replicate] at h
  rcases h with (h | h) | h
  · exact Or.inl h.2
  · exact Or.inr (Or.inl ((decimal_spec n).2.1 c h))
  · exact Or.inr (Or.inr h)

theorem scanLines_skip : ∀ (xs : List GoString) (line : GoString) (ys : List GoString),
    (∀ l ∈ xs, Contains l "insertion".toList = false ∧ Contains l "deletion".toList = false) →
    Contains line "insertion".toList = true →
    scanLines (xs ++ line :: ys) = scanParts (Split line ", ".toList) (0, 0) := by
  intro xs
  induction xs with
  | nil =>
    intro line ys _ hl
    simp only [List.nil_append, scanLines, hl, Bool.true_or, if_true]
  | cons x xs ih =>
    intro line ys hxs hl
    obtain ⟨h1, h2⟩ := hxs x (by simp)
    simp only [List.cons_append, scanLines, h1, h2, Bool.or_self, Bool.false_eq_true, if_false]
    exact ih line ys (fun l hlm => hxs l (by simp [hlm])) hl

theorem summary_parts (k F N : Nat) :
    ',' ∉ List.replicate k ' ' ++ decimal F ++ " files changed".toList ∧
    Contains (List.replicate k ' ' ++ decimal F ++ " files changed".toList)
      "insertion".toList = false ∧
    Contains (List.replicate k ' ' ++ decimal F ++ " files changed".toList)
      "deletion".toList = false ∧
    ',' ∉ decimal N ++ " insertions(+)".toList ∧
    Contains (decimal N ++ " insertions(+)".toList) "insertion".toList = true ∧
    ',' ∉ decimal N ++ " deletions(-)".toList ∧
    Contains (decimal N ++ " deletions(-)".toList) "insertion".toList = false ∧
    Contains (decimal N ++ " deletions(-)".toList) "deletion".toList = true := by
  have hnum : ∀ (c : Char) (k n : Nat) (txt : GoString), c ≠ ' ' → c.isDigit = false →
      c ∉ txt → c ∉ List.replicate k ' ' ++ decimal n ++ txt := by
    intro c k n txt h1 h2 h3 h
    rcases mem_numeral_text h with h | h | h
    · exact h1 h
    · rw [h2] at h; cases h
    · exact h3 h
  have hnum0 : ∀ (c : Char) (n : Nat) (txt : GoString), c ≠ ' ' → c.isDigit = false →
      c ∉ txt → c ∉ decimal n ++ txt := by
    intro c n txt h1 h2 h3
    have := hnum c 0 n txt h1 h2 h3
    simpa using this
  refine ⟨?_, ?_, ?_, ?_, ?_, ?_, ?_, ?_⟩
  · exact hnum ',' k F _ (by decide) (by decide) (by decide)
  · exact not_Contains_of_not_mem 'r' (by decide)
      (hnum 'r' k F _ (by decide) (by decide) (by decide))
  · exact not_Contains_of_not_mem 't' (by decide)
      (hnum 't' k F _ (by decide) (by decide) (by decide))
  · exact hnum0 ',' N _ (by decide) (by decide) (by decide)
  · exact (Contains_iff_inside _ _).mpr ⟨decimal N ++ [' '], "s(+)".toList, by
      simp [List.append_assoc]⟩
  · exact hnum0 ',' N _ (by decide) (by decide) (by decide)
  · exact not_Contains_of_not_mem 'r' (by decide)
      (hnum0 'r' N _ (by decide) (by decide) (by decide))
  · exact (Contains_iff_inside _ _).mpr ⟨decimal N ++ [' '], "s(-)".toList, by
      simp [List.append_assoc]⟩

theorem Split_commaSpace_cons (b rest : GoString) (hb : ',' ∉ b) :
    Split (b ++ ',' :: ' ' :: rest) ", ".toList = b :: Split rest ", ".toList := by
  have h := Split_append_sep (x := ',') (t := [' ']) (by decide) b rest (commaSpace_absent hb)
  have e : ", ".toList = [',', ' '] := rfl
  rw [e]
  simpa [List.append_assoc] using h

theorem Split_commaSpace_single (b : GoString) (hb : ',' ∉ b) :
    Split b ", ".toList = [b] :=
  Split_of_absent (by decide) (commaSpace_absent hb)

theorem scanParts_summaryBoth (k F N M : Nat) (hN : N < 2 ^ 63) (hM : M < 2 ^ 63) :
    Contains (summaryBoth k F N M) "insertion".toList = true ∧
    scanParts (Split (summaryBoth k F N M) ", ".toList) (0, 0) = ((N : Int), (M : Int)) := by
  obtain ⟨a1, a2, a3, a4, a5, _, _, _⟩ := summary_parts k F N
  obtain ⟨_, _, _, _, _, b6, b7, b8⟩ := summary_parts k F M
  have e : summaryBoth k F N M =
      (List.replicate k ' ' ++ decimal F ++ " files changed".toList) ++ ',' :: ' ' ::
        ((decimal N ++ " insertions(+)".toList) ++ ',' :: ' ' ::
          (decimal M ++ " deletions(-)".toList)) := by
    simp [summaryBoth, List.append_assoc]
  constructor
  · apply (Contains_iff_inside _ _).mpr
    have h5 := (Contains_iff_inside _ _).mp a5
    rw [e]
    exact h5.trans ⟨(List.replicate k ' ' ++ decimal F ++ " files changed".toList) ++ [',', ' '],
      ',' :: ' ' :: (decimal M ++ " deletions(-)".toList), by simp [List.append_assoc]⟩
  · rw [e, Split_commaSpace_cons _ _ a1, Split_commaSpace_cons _ _ a4,
      Split_commaSpace_single _ b6]
    have s1 : Sscanf (decimal N ++ " insertions(+)".toList) 0 = N :=
      Sscanf_decimal N "insertions(+)".toList 0 hN
    have s2 : Sscanf (decimal M ++ " deletions(-)".toList) 0 = M :=
      Sscanf_decimal M "deletions(-)".toList 0 hM
    simp only [scanParts, a2, a3, a5, b7, b8, Bool.false_eq_true, if_false, if_true, s1, s2]

theorem scanParts_summaryInsertions (k F N : Nat) (hN : N < 2 ^ 63) :
    Contains (summaryInsertions k F N) "insertion".toList = true ∧
    scanParts (Split (summaryInsertions k F N) ", ".toList) (0, 0) = ((N : Int), 0) := by
  obtain ⟨a1, a2, a3, a4, a5, _, _, _⟩ := summary_parts k F N
  have e : summaryInsertions k F N =
      (List.replicate k ' ' ++ decimal F ++ " files changed".toList) ++ ',' :: ' ' ::
        (decimal N ++ " insertions(+)".toList) := by
    simp [summaryInsertions, List.append_assoc]
  constructor
  · apply (Contains_iff_inside _ _).mpr
    have h5 := (Contains_iff_inside _ _).mp a5
    rw [e]
    exact h5.trans ⟨(List.replicate k ' ' ++ decimal F ++ " files changed".toList) ++ [',', ' '],
      [], by simp [List.append_assoc]⟩
  · rw [e, Split_commaSpace_cons _ _ a1, Split_commaSpace_single _ a4]
    have s1 : Sscanf (decimal N ++ " insertions(+)".toList) 0 = N :=
      Sscanf_decimal N "insertions(+)".toList 0 hN
    simp only [scanParts, a2, a3, a5, Bool.false_eq_true, if_false, if_true, s1]

/-- C4 (amended): when both queries succeed and the last line of the diffstat output that
mentions "insertion" or "deletion" is the summary
`F files changed, N insertions(+), M deletions(-)` (after any indentation), with `N` and `M`
below 2^63, `getCommitChanges` returns additions = N and deletions = M without error; when
that line is `F files changed, N insertions(+)` it returns additions = N and deletions = 0. -/
theorem diffstat_summary_parsed {τ : Type} (env : Env τ) (hash nameOnly stats : GoString)
    (before after : List GoString) (indent F N M : Nat)
    (hname : env.showNameOnly hash = .ok nameOnly)
    (hstat : env.showStat hash = .ok stats)
    (hafter : ∀ l ∈ after,
      Contains l "insertion".toList = false ∧ Contains l "deletion".toList = false)
    (hN : N < 2 ^ 63) (hM : M < 2 ^ 63) :
    (Split stats "\n".toList = before ++ summaryBoth indent F N M :: after →
      (getCommitChanges env hash).additions = N ∧ (getCommitChanges env hash).deletions = M ∧
      (getCommitChanges env hash).err = none) ∧
    (Split stats "\n".toList = before ++ summaryInsertions indent F N :: after →
      (getCommitChanges env hash).additions = N ∧ (getCommitChanges env hash).deletions = 0 ∧
      (getCommitChanges env hash).err = none) := by
  have hrev : ∀ l ∈ after.reverse,
      Contains l "insertion".toList = false ∧ Contains l "deletion".toList = false :=
    fun l hl => hafter l (List.mem_reverse.mp hl)
  constructor
  · intro hs
    obtain ⟨h1, h2⟩ := scanParts_summaryBoth indent F N M hN hM
    have hscan := scanLines_skip after.reverse _ before.reverse hrev h1
    unfold getCommitChanges
    simp only [hname, hstat, hs, List.reverse_append, List.reverse_cons, List.append_assoc,
      List.singleton_append, hscan, h2, and_self]
  · intro hs
    obtain ⟨h1, h2⟩ := scanParts_summaryInsertions indent F N hN
    have hscan := scanLines_skip after.reverse _ before.reverse hrev h1
    unfold getCommitChanges
    simp only [hname, hstat, hs, List.reverse_append, List.reverse_cons, List.append_assoc,
      List.singleton_append, hscan, h2, and_self, Int.Nat.cast_ofNat_Int]

/-- Witness of `diffstat_summary_parsed`: "3 files changed, 10 insertions(+), 4 deletions(-)"
gives 10 and 4, and "1 files changed, 7 insertions(+)" gives 7 and 0. -/
theorem diffstat_summary_parsed_witness :
    ((getCommitChanges bothSucceed "3f2a9c1".toList).additions = 10 ∧
      (getCommitChanges bothSucceed "3f2a9c1".toList).deletions = 4 ∧
      (getCommitChanges bothSucceed "3f2a9c1".toList).err = none) ∧
    ((getCommitChanges insertionsOnly "3f2a9c1".toList).additions = 7 ∧
      (getCommitChanges insertionsOnly "3f2a9c1".toList).deletions = 0 ∧
      (getCommitChanges insertionsOnly "3f2a9c1".toList).err = none) :=
  ⟨(diffstat_summary_parsed bothSucceed "3f2a9c1".toList "main.go\nREADME.md\ngo.mod\n".toList
      (" main.go   | 12 ++++++++----\n README.md |  2 ++\n go.mod    |  0\n".toList ++
        " 3 files changed, 10 insertions(+), 4 deletions(-)\n".toList)
      [" main.go   | 12 ++++++++----".toList, " README.md |  2 ++".toList,
        " go.mod    |  0".toList] [[]] 1 3 10 4 rfl rfl (by decide) (by decide) (by decide)).1
      (by decide),
    (diffstat_summary_parsed insertionsOnly "3f2a9c1".toList "README.md\n".toList
      " README.md | 7 +++++++\n 1 files changed, 7 insertions(+)\n".toList
      [" README.md | 7 +++++++".toList] [[]] 1 1 7 0 rfl rfl (by decide) (by decide)
      (by decide)).2 (by decide)⟩

/-- C4 (as stated, refuted): for the summary
`3 files changed, 9223372036854775808 insertions(+), 4 deletions(-)` the count of insertions
does not fit an `int`, scanning it fails, and `getCommitChanges` returns additions = 0. -/
theorem huge_insertions_not_returned :
    summaryBoth 0 3 (2 ^ 63) 4 =
      "3 files changed, 9223372036854775808 insertions(+), 4 deletions(-)".toList ∧
    (getCommitChanges hugeInsertions "3f2a9c1".toList).additions = 0 ∧
    (getCommitChanges hugeInsertions "3f2a9c1".toList).deletions = 4 ∧
    (getCommitChanges hugeInsertions "3f2a9c1".toList).additions ≠ ((2 ^ 63 : Nat) : Int) := by
  decide

/-! ## The template helper `slice` -/

/-- C5: for every string `s` and all integers `i`, `j` with `0 <= i <= j`, `slice s i j`
returns the empty string when `i >= len(s)` and otherwise the bytes of `s` from position `i` up
to but not including `min(j, len(s))`. -/
theorem slice_in_range (s : List UInt8) (i j : Int) (hi : 0 ≤ i) (hij : i ≤ j) :
    slice s i j =
      some (if i ≥ s.length then []
        else (s.take (min j s.length).toNat).drop i.toNat) := by
  unfold slice
  by_cases h : i ≥ (s.length : Int)
  · rw [if_pos h, if_pos h]
  · rw [if_neg h, if_neg h]
    simp only [sliceExpr]
    by_cases hj : j > (s.length : Int)
    · have hmin : min j (s.length : Int) = s.length := by omega
      rw [if_pos hj, hmin, if_pos (by omega)]
    · have hmin : min j (s.length : Int) = j := by omega
      rw [if_neg hj, hmin, if_pos (by omega)]

/-- Witness of `slice_in_range`: the three examples `slice("hello", 1, 3) = "el"`,
`slice("hi", 5, 9) = ""` and `slice("hi", 0, 9) = "hi"`. -/
theorem slice_in_range_witness :
    slice (utf8 "hello".toList) 1 3 = some (utf8 "el".toList) ∧
    slice (utf8 "hi".toList) 5 9 = some (utf8 "".toList) ∧
    slice (utf8 "hi".toList) 0 9 = some (utf8 "hi".toList) :=
  ⟨(slice_in_range (utf8 "hello".toList) 1 3 (by decide) (by decide)).trans (by decide),
    (slice_in_range (utf8 "hi".toList) 5 9 (by decide) (by decide)).trans (by decide),
    (slice_in_range (utf8 "hi".toList) 0 9 (by decide) (by decide)).trans (by decide)⟩

/-- C6 (amended): for every string `s` and integers `i`, `j` with `i >= len(s)`, or with
`0 <= i <= j`, `slice s i j` does not fail and returns a contiguous substring of `s`. -/
theorem slice_bounded_when_ordered (s : List UInt8) (i j : Int)
    (h : (s.length : Int) ≤ i ∨ (0 ≤ i ∧ i ≤ j)) :
    ∃ r, slice s i j = some r ∧ r <:+: s := by
  unfold slice
  by_cases hlen : i ≥ (s.length : Int)
  · rw [if_pos hlen]
    exact ⟨[], rfl, List.nil_infix⟩
  · have h2 : 0 ≤ i ∧ i ≤ j := by
      rcases h with h | h
      · omega
      · exact h
    rw [if_neg hlen]
    simp only [sliceExpr]
    by_cases hj : j > (s.length : Int)
    · rw [if_pos hj, if_pos (by omega)]
      exact ⟨_, rfl, (List.drop_suffix _ _).isInfix.trans (List.take_prefix _ _).isInfix⟩
    · rw [if_neg hj, if_pos (by omega)]
      exact ⟨_, rfl, (List.drop_suffix _ _).isInfix.trans (List.take_prefix _ _).isInfix⟩

/-- Witness of `slice_bounded_when_ordered`: an end index beyond the length is clamped. -/
theorem slice_bounded_when_ordered_witness :
    ∃ r, slice (utf8 "hello".toList) 2 40 = some r ∧ r <:+: utf8 "hello".toList :=
  slice_bounded_when_ordered (utf8 "hello".toList) 2 40 (Or.inr (by decide))

/-- C6 (as stated, refuted): with `i > j`, or with a negative `i`, the slice expression
inside the helper panics. -/
theorem slice_fails_inverted_or_negative :
    slice (utf8 "hello".toList) 3 1 = none ∧ slice (utf8 "hello".toList) (-1) 3 = none := by
  decide

/-! ## Calendar days -/

theorem daysIn_pos (m : Nat) (y : Int) : 28 ≤ daysIn m y ∧ daysIn m y ≤ 31 := by
  unfold daysIn
  split_ifs <;> omega

theorem iterate_nextDay (y : Int) (m : Nat) : ∀ k : Nat, 1 + k ≤ daysIn m y →
    Nat.iterate nextDay k ⟨y, m, 1⟩ = ⟨y, m, 1 + k⟩ := by
  intro k
  induction k with
  | zero => intro _; rfl
  | succ k ih =>
    intro h
    rw [Function.iterate_succ_apply', ih (by omega)]
    unfold nextDay
    simp only
    rw [if_pos (by omega)]
    rfl

/-- On a valid date, adding one day gives the day after. -/
theorem AddDate_one (t : Time) (hm : 1 ≤ t.month ∧ t.month ≤ 12)
    (hd : 1 ≤ t.day ∧ t.day ≤ daysIn t.month t.year) : AddDate t 0 0 1 = nextDay t := by
  obtain ⟨y, m, d⟩ := t
  simp only at hm hd
  unfold AddDate Date
  simp only
  have e1 : y + 0 + ((m : Int) + 0 - 1) / 12 = y := by omega
  have e2 : (((m : Int) + 0 - 1) % 12).toNat + 1 = m := by omega
  have e3 : (d : Int) + 1 - 1 = Int.ofNat d := by simp
  rw [e1, e2, e3]
  simp only [addDays]
  obtain ⟨k, rfl⟩ : ∃ k, d = k + 1 := ⟨d - 1, by omega⟩
  rw [Function.iterate_succ_apply', iterate_nextDay y m k (by omega)]
  congr 2
  omega

/-- On a valid date, subtracting one day gives the day before. -/
theorem AddDate_minus_one (t : Time) (hm : 1 ≤ t.month ∧ t.month ≤ 12)
    (hd : 1 ≤ t.day ∧ t.day ≤ daysIn t.month t.year) : AddDate t 0 0 (-1) = prevDay t := by
  obtain ⟨y, m, d⟩ := t
  simp only at hm hd
  unfold AddDate Date
  simp only
  have e1 : y + 0 + ((m : Int) + 0 - 1) / 12 = y := by omega
  have e2 : (((m : Int) + 0 - 1) % 12).toNat + 1 = m := by omega
  rw [e1, e2]
  by_cases h1 : d = 1
  · subst h1
    have e3 : ((1 : Nat) : Int) + -1 - 1 = Int.negSucc 0 := by decide
    rw [e3]
    simp only [addDays, Function.iterate_succ, Function.iterate_zero, Function.comp_apply, id_eq]
  · obtain ⟨k, rfl⟩ : ∃ k, d = k + 2 := ⟨d - 2, by omega⟩
    have e3 : ((k + 2 : Nat) : Int) + -1 - 1 = Int.ofNat k := by
      simp only [Int.ofNat_eq_coe]
      omega
    rw [e3]
    simp only [addDays]
    rw [iterate_nextDay y m k (by omega)]
    unfold prevDay
    simp only
    rw [if_pos (by omega)]
    congr 1
    omega

theorem nextDay_valid (t : Time) (hm : 1 ≤ t.month ∧ t.month ≤ 12)
    (hd : 1 ≤ t.day ∧ t.day ≤ daysIn t.month t.year) :
    (1 ≤ (nextDay t).month ∧ (nextDay t).month ≤ 12) ∧
    (1 ≤ (nextDay t).day ∧ (nextDay t).day ≤ daysIn (nextDay t).month (nextDay t).year) := by
  unfold nextDay
  split_ifs with h1 h2
  · simp only; omega
  · simp only
    have := daysIn_pos (t.month + 1) t.year
    omega
  · simp only
    have := daysIn_pos 1 (t.year + 1)
    omega

theorem prevDay_nextDay (t : Time) (hm : 1 ≤ t.month ∧ t.month ≤ 12)
    (hd : 1 ≤ t.day ∧ t.day ≤ daysIn t.month t.year) : prevDay (nextDay t) = t := by
  obtain ⟨y, m, d⟩ := t
  simp only at hm hd
  unfold nextDay
  simp only
  split_ifs with h1 h2
  · unfold prevDay
    simp only
    rw [if_pos (by omega)]
    simp
  · unfold prevDay
    simp only [lt_self_iff_false, if_false]
    rw [if_pos (by omega)]
    simp only [Nat.add_sub_cancel]
    congr 1
    omega
  · unfold prevDay
    simp only [lt_self_iff_false, if_false]
    have hm12 : m = 12 := by omega
    subst hm12
    have hd31 : d = 31 := by
      have : daysIn 12 y = 31 := by simp [daysIn]
      omega
    subst hd31
    simp

/-- Adding a day and subtracting it again returns the date. -/
theorem AddDate_round_trip (t : Time) (hm : 1 ≤ t.month ∧ t.month ≤ 12)
    (hd : 1 ≤ t.day ∧ t.day ≤ daysIn t.month t.year) :
    AddDate (AddDate t 0 0 1) 0 0 (-1) = t := by
  rw [AddDate_one t hm hd]
  obtain ⟨h1, h2⟩ := nextDay_valid t hm hd
  rw [AddDate_minus_one _ h1 h2, prevDay_nextDay t hm hd]

/-! ## Formatting and parsing `2006-01-02` -/

theorem decimalLoop_acc : ∀ (fuel n : Nat) (acc : GoString), n < fuel →
    decimalLoop fuel n acc = decimal n ++ acc := by
  intro fuel
  induction fuel using Nat.strong_induction_on with
  | _ fuel ih =>
    intro n acc h
    cases fuel with
    | zero => omega
    | succ fuel =>
      unfold decimal
      by_cases hq : n / 10 = 0
      · simp [decimalLoop, hq]
      · have h1 := ih fuel (by omega) (n / 10) (Nat.digitChar (n % 10) :: acc) (by omega)
        have h2 := ih n (by omega) (n / 10) [Nat.digitChar (n % 10)] (by omega)
        simp only [decimalLoop, hq, if_false]
        rw [h1, h2]
        simp

theorem decimal_small {n : Nat} (h : n < 10) : decimal n = [Nat.digitChar n] := by
  unfold decimal
  have hq : n / 10 = 0 := by omega
  have hm : n % 10 = n := by omega
  simp [decimalLoop, hq, hm]

theorem decimal_step {n : Nat} (h : 10 ≤ n) :
    decimal n = decimal (n / 10) ++ [Nat.digitChar (n % 10)] := by
  have hq : ¬ n / 10 = 0 := by omega
  have h2 := decimalLoop_acc n (n / 10) [Nat.digitChar (n % 10)] (by omega)
  conv_lhs => unfold decimal
  simp only [decimalLoop, hq, if_false]
  exact h2

theorem appendInt_two (n : Nat) (h : n < 100) :
    appendInt (n : Int) 2 = [Nat.digitChar (n / 10), Nat.digitChar (n % 10)] := by
  unfold appendInt
  simp only [Int.natAbs_ofNat]
  rw [if_neg (by omega)]
  by_cases h1 : n < 10
  · have hq : n / 10 = 0 := by omega
    have hm : n % 10 = n := by omega
    rw [decimal_small h1, hq, hm]
    rfl
  · rw [decimal_step (by omega), decimal_small (by omega : n / 10 < 10)]
    rfl

theorem appendInt_four (n : Nat) (h : n < 10000) :
    appendInt (n : Int) 4 = [Nat.digitChar (n / 1000), Nat.digitChar (n / 100 % 10),
      Nat.digitChar (n / 10 % 10), Nat.digitChar (n % 10)] := by
  unfold appendInt
  simp only [Int.natAbs_ofNat]
  rw [if_neg (by omega)]
  by_cases h1 : n < 10
  · have e1 : n / 1000 = 0 := by omega
    have e2 : n / 100 % 10 = 0 := by omega
    have e3 : n / 10 % 10 = 0 := by omega
    have e4 : n % 10 = n := by omega
    rw [decimal_small h1, e1, e2, e3, e4]
    rfl
  · by_cases h2 : n < 100
    · have e1 : n / 1000 = 0 := by omega
      have e2 : n / 100 % 10 = 0 := by omega
      have e3 : n / 10 % 10 = n / 10 := by omega
      rw [decimal_step (by omega), decimal_small (by omega : n / 10 < 10), e1, e2, e3]
      rfl
    · by_cases h3 : n < 1000
      · have e1 : n / 1000 = 0 := by omega
        have e2 : n / 100 % 10 = n / 10 / 10 := by omega
        rw [decimal_step (by omega), decimal_step (by omega : 10 ≤ n / 10),
          decimal_small (by omega : n / 10 / 10 < 10), e1, e2]
        rfl
      · have e1 : n / 1000 = n / 10 / 10 / 10 := by omega
        have e2 : n / 100 % 10 = n / 10 / 10 % 10 := by omega
        rw [decimal_step (by omega), decimal_step (by omega : 10 ≤ n / 10),
          decimal_step (by omega : 10 ≤ n / 10 / 10),
          decimal_small (by omega : n / 10 / 10 / 10 < 10), e1, e2]
        rfl

theorem digit_some {c : Char} {a : Nat} (h : digit c = some a) :
    a < 10 ∧ Nat.digitChar a = c ∧ c.isDigit = true := by
  unfold digit at h
  by_cases hc : c.isDigit = true
  · rw [if_pos hc] at h
    simp only [Option.some.injEq] at h
    subst h
    have := isDigit_cases hc
    simp only [String.toList, List.mem_cons, List.mem_singleton, List.not_mem_nil,
      or_false] at this
    rcases this with rfl | rfl | rfl | rfl | rfl | rfl | rfl | rfl | rfl | rfl <;> decide
  · rw [if_neg hc] at h
    cases h

/-- A value accepted by `Parse` is a valid date, and `Format` prints the value back. -/
theorem Parse_some {value : GoString} {t : Time} (h : Parse value = some t) :
    (1 ≤ t.month ∧ t.month ≤ 12) ∧ (1 ≤ t.day ∧ t.day ≤ daysIn t.month t.year) ∧
    Format t = value ∧ (∀ c ∈ value, c.isDigit = true ∨ c = '-') := by
  unfold Parse at h
  split at h
  · rename_i y1 y2 y3 y4 s1 m1 m2 s2 dd1 dd2
    split at h
    · rename_i a b c d e f g k ha hb hc hd he hf hg hk
      obtain ⟨a1, a2, a3⟩ := digit_some ha
      obtain ⟨b1, b2, b3⟩ := digit_some hb
      obtain ⟨c1, c2, c3⟩ := digit_some hc
      obtain ⟨d1, d2, d3⟩ := digit_some hd
      obtain ⟨e1, e2, e3⟩ := digit_some he
      obtain ⟨f1, f2, f3⟩ := digit_some hf
      obtain ⟨g1, g2, g3⟩ := digit_some hg
      obtain ⟨k1, k2, k3⟩ := digit_some hk
      simp only at h
      split at h
      · rename_i hcond
        obtain ⟨hs1, hs2, hm1, hm2, hd1, hd2⟩ := hcond
        simp only [Option.some.injEq] at h
        subst h
        refine ⟨⟨hm1, hm2⟩, ⟨hd1, hd2⟩, ?_, ?_⟩
        · unfold Format
          simp only
          rw [appendInt_four _ (by omega), appendInt_two _ (by omega),
            appendInt_two _ (by omega)]
          have q1 : (1000 * a + 100 * b + 10 * c + d) / 1000 = a := by omega
          have q2 : (1000 * a + 100 * b + 10 * c + d) / 100 % 10 = b := by omega
          have q3 : (1000 * a + 100 * b + 10 * c + d) / 10 % 10 = c := by omega
          have q4 : (1000 * a + 100 * b + 10 * c + d) % 10 = d := by omega
          have q5 : (10 * e + f) / 10 = e := by omega
          have q6 : (10 * e + f) % 10 = f := by omega
          have q7 : (10 * g + k) / 10 = g := by omega
          have q8 : (10 * g + k) % 10 = k := by omega
          rw [q1, q2, q3, q4, q5, q6, q7, q8, a2, b2, c2, d2, e2, f2, g2, k2, hs1, hs2]
          rfl
        · intro x hx
          simp only [List.mem_cons, List.mem_singleton, List.not_mem_nil, or_false] at hx
          rcases hx with rfl | rfl | rfl | rfl | rfl | rfl | rfl | rfl | rfl | rfl
          · exact Or.inl a3
          · exact Or.inl b3
          · exact Or.inl c3
          · exact Or.inl d3
          · exact Or.inr hs1
          · exact Or.inl e3
          · exact Or.inl f3
          · exact Or.inr hs2
          · exact Or.inl g3
          · exact Or.inl k3
      · cases h
    · cases h
  · cases h

/-! ## The output file name -/

theorem not_mem_of_singleton_absent {a : Char} {s : GoString} (h : ¬ [a] <:+: s) :
    a ∉ s := by
  intro hm
  obtain ⟨u, v, huv⟩ := List.append_of_mem hm
  exact h ⟨u, v, by rw [huv]; simp⟩

theorem map_replace_of_not_mem (a b : Char) {s : GoString} (h : a ∉ s) :
    s.map (fun c => if c = a then b else c) = s := by
  induction s with
  | nil => rfl
  | cons c s ih =>
    have hc : c ≠ a := fun e => h (by simp [e])
    have hs : a ∉ s := fun e => h (by simp [e])
    simp [hc, ih hs]

/-- Replacing a single character by another one acts character by character. -/
theorem ReplaceAll_single (a b : Char) : ∀ (n : Nat) (s : GoString), s.length ≤ n →
    ReplaceAll s [a] [b] = s.map (fun c => if c = a then b else c) := by
  intro n
  induction n using Nat.strong_induction_on with
  | _ n ih =>
    intro s hs
    have hsep : ([a] : GoString) ≠ [] := by simp
    unfold ReplaceAll
    rw [if_neg hsep]
    cases hc : cut [a] s with
    | none =>
      have hnot := (cut_eq_none hsep).mp hc
      rw [Split_of_absent hsep hnot, map_replace_of_not_mem a b
        (not_mem_of_singleton_absent hnot)]
      rfl
    | some pq =>
      obtain ⟨p, q⟩ := pq
      obtain ⟨hpq, hp⟩ := cut_eq_some hc
      have hlt := cut_length_lt hsep hc
      have ihq := ih q.length (by omega) q (le_refl _)
      unfold ReplaceAll at ihq
      rw [if_neg hsep] at ihq
      rw [Split_cut hsep hc, Join_cons _ _ _ (Split_ne_nil q [a] hsep), ihq, hpq]
      simp [map_replace_of_not_mem a b (not_mem_of_singleton_absent (hp hsep))]

theorem sanitized_eq (companyName : GoString) :
    ReplaceAll (ReplaceAll companyName " ".toList "-".toList) "/".toList "-".toList =
      companyName.map (fun c => if c = ' ' ∨ c = '/' then '-' else c) := by
  have e1 : " ".toList = [' '] := rfl
  have e2 : "-".toList = ['-'] := rfl
  have e3 : "/".toList = ['/'] := rfl
  rw [e1, e2, e3, ReplaceAll_single ' ' '-' _ companyName (le_refl _),
    ReplaceAll_single '/' '-' _ _ (le_refl _), List.map_map]
  apply List.map_congr_left
  intro c _
  simp only [Function.comp_apply]
  by_cases h1 : c = ' '
  · simp [h1]
  · by_cases h2 : c = '/'
    · simp [h2]
    · simp [h1, h2]

theorem mainOutputFileName_default (endDateStr companyName : GoString) (endDate : Time)
    (h : Parse endDateStr = some endDate) :
    mainOutputFileName endDateStr companyName [] =
      some (endDateStr ++ '-' ::
        companyName.map (fun c => if c = ' ' ∨ c = '/' then '-' else c) ++
        "-report.html".toList) := by
  obtain ⟨hm, hd, hf, _⟩ := Parse_some h
  unfold mainOutputFileName
  rw [h]
  simp only [if_true]
  rw [AddDate_round_trip endDate hm hd, hf, sanitized_eq]

/-- C9 (amended): when no output path is given, for every valid end date `d` (YYYY-MM-DD) and
every company name `c`, the output file name computed by `main` is the text of `d`, then "-",
then `c` with every space and every "/" replaced by "-", then "-report.html"; adding one day
for the exclusive upstream bound and subtracting it again returns the parsed end date. -/
theorem output_name_from_date_and_company (endDateStr companyName : GoString) (endDate : Time)
    (h : Parse endDateStr = some endDate) :
    mainOutputFileName endDateStr companyName [] =
      some (endDateStr ++ "-".toList ++
        companyName.map (fun c => if c = ' ' ∨ c = '/' then '-' else c) ++
        "-report.html".toList) ∧
    AddDate (AddDate endDate 0 0 1) 0 0 (-1) = endDate ∧
    Format (AddDate (AddDate endDate 0 0 1) 0 0 (-1)) = endDateStr := by
  obtain ⟨hm, hd, hf, _⟩ := Parse_some h
  refine ⟨?_, AddDate_round_trip endDate hm hd, by rw [AddDate_round_trip endDate hm hd, hf]⟩
  rw [mainOutputFileName_default endDateStr companyName endDate h]
  simp [List.append_assoc]

/-- Witness of `output_name_from_date_and_company`: the last day of a leap February. -/
theorem output_name_from_date_and_company_witness :
    mainOutputFileName "2024-02-29".toList "Acme Corp/EU".toList [] =
      some "2024-02-29-Acme-Corp-EU-report.html".toList ∧
    AddDate (AddDate ⟨2024, 2, 29⟩ 0 0 1) 0 0 (-1) = ⟨2024, 2, 29⟩ ∧
    Format (AddDate (AddDate ⟨2024, 2, 29⟩ 0 0 1) 0 0 (-1)) = "2024-02-29".toList :=
  output_name_from_date_and_company "2024-02-29".toList "Acme Corp/EU".toList ⟨2024, 2, 29⟩ (by decide)

/-- C9 (as stated, refuted): for the company name "Acme Corp" the file name is not the date,
"-", the company name and "-report.html": the space of the name is replaced. -/
theorem output_name_company_not_verbatim :
    Parse "2024-01-31".toList = some ⟨2024, 1, 31⟩ ∧
    mainOutputFileName "2024-01-31".toList "Acme Corp".toList [] =
      some "2024-01-31-Acme-Corp-report.html".toList ∧
    mainOutputFileName "2024-01-31".toList "Acme Corp".toList [] ≠
      some ("2024-01-31".toList ++ "-".toList ++ "Acme Corp".toList ++ "-report.html".toList) := by
  decide

/-- C10: for every company name and every valid end date, the default output file name
derived by `main` (no output path given) contains no space and no "/". -/
theorem output_name_no_space_no_slash (endDateStr companyName : GoString)
    (h : (Parse endDateStr).isSome = true) :
    ∃ name, mainOutputFileName endDateStr companyName [] = some name ∧
      ' ' ∉ name ∧ '/' ∉ name := by
  obtain ⟨endDate, hp⟩ := Option.isSome_iff_exists.mp h
  obtain ⟨_, _, _, hchars⟩ := Parse_some hp
  refine ⟨_, mainOutputFileName_default endDateStr companyName endDate hp, ?_, ?_⟩
  · intro hmem
    simp only [List.mem_append, List.mem_cons, List.mem_map] at hmem
    rcases hmem with (hmem | hmem | ⟨c, _, hc⟩) | hmem
    · rcases hchars _ hmem with h1 | h1
      · revert h1; decide
      · revert h1; decide
    · revert hmem; decide
    · split_ifs at hc with h1
      · revert hc; decide
      · exact h1 (Or.inl hc)
    · revert hmem; decide
  · intro hmem
    simp only [List.mem_append, List.mem_cons, List.mem_map] at hmem
    rcases hmem with (hmem | hmem | ⟨c, _, hc⟩) | hmem
    · rcases hchars _ hmem with h1 | h1
      · revert h1; decide
      · revert h1; decide
    · revert hmem; decide
    · split_ifs at hc with h1
      · revert hc; decide
      · exact h1 (Or.inr hc)
    · revert hmem; decide

/-- Witness of `output_name_no_space_no_slash`: a company name with spaces and slashes. -/
theorem output_name_no_space_no_slash_witness :
    ∃ name, mainOutputFileName "2023-12-31".toList "A / B Ltd".toList [] = some name ∧
      ' ' ∉ name ∧ '/' ∉ name :=
  output_name_no_space_no_slash "2023-12-31".toList "A / B Ltd".toList (by decide)

end RepoReport
